import Mathlib

/-!
Verification of the translation core of `lingui-po-translate`.

The development shallowly embeds the repository's translation core
(`src/core/translate-core.ts`, `src/core/core-definitions.ts`,
`src/file-formats/po/comment-parser.ts`) in Lean.

JavaScript `Map<string, string | null>` values (`TSet` in the source) are
embedded as ordered association lists `List (String × Option String)`:
`Map.get` returns the value at the first matching key, `Map.set` replaces
in place or appends, iteration follows insertion order.

Functions of the repository whose sources are not available
(`tset-ops.ts`, `po-files.ts`, `invoke-translation-service.ts`, the file
readers) are modelled from the specification; each such definition carries
a doc comment starting with "Modelled from the spec".
-/

/-- Ordered text mapping: key-ordered mapping from string key to nullable
string value, mirroring the source's `TSet = Map<string, string | null>`. -/
abbrev TSet : Type := List (String × Option String)

/-- `Map.get`: the value stored at the first occurrence of key `k`,
`none` when the key is absent. -/
def tget : TSet → String → Option (Option String)
  | [], _ => none
  | kv :: rest, k => if kv.1 = k then some kv.2 else tget rest k

/-- `Map.has`. -/
def thas (m : TSet) (k : String) : Bool :=
  (tget m k).isSome

/-- The iteration order of the mapping's keys. -/
def listKeys (m : TSet) : List String :=
  m.map Prod.fst

/-- `Map.set`: replace the value in place when the key is present,
append a new entry otherwise. -/
def tset (m : TSet) (k : String) (v : Option String) : TSet :=
  if thas m k then
    m.map (fun kv => if kv.1 = k then (k, v) else kv)
  else m ++ [(k, v)]

/-- `other.forEach((v, k) => m.set(k, v))`: merge `add` into `m`, entry by
entry, in `add`'s iteration order. -/
def tmerge (m add : TSet) : TSet :=
  add.foldl (fun acc kv => tset acc kv.1 kv.2) m

@[simp] theorem tget_nil (k : String) : tget [] k = none := rfl

theorem tget_cons (kv : String × Option String) (rest : TSet) (k : String) :
    tget (kv :: rest) k = if kv.1 = k then some kv.2 else tget rest k := rfl

@[simp] theorem thas_nil (k : String) : thas [] k = false := rfl

theorem thas_cons (kv : String × Option String) (rest : TSet) (k : String) :
    thas (kv :: rest) k = (decide (kv.1 = k) || thas rest k) := by
  simp only [thas, tget_cons]
  by_cases h : kv.1 = k <;> simp [h]

theorem thas_iff_tget (m : TSet) (k : String) :
    thas m k = true ↔ ∃ v, tget m k = some v := by
  simp [thas, Option.isSome_iff_exists]

theorem tget_eq_none_of_thas_false {m : TSet} {k : String} (h : thas m k = false) :
    tget m k = none := by
  simpa [thas, Option.isSome_iff_exists] using h

theorem tget_mem {m : TSet} {k : String} {v : Option String}
    (h : tget m k = some v) : (k, v) ∈ m := by
  induction m with
  | nil => simp at h
  | cons kv rest ih =>
    rw [tget_cons] at h
    by_cases hk : kv.1 = k
    · simp only [hk, if_pos rfl] at h
      have hkv : kv = (k, v) := by
        cases kv with
        | mk a b =>
          simp only at hk
          cases h
          rw [hk]
      rw [hkv]
      exact List.mem_cons_self _ _
    · simp only [hk, if_neg] at h
      exact List.mem_cons_of_mem _ (ih (by simpa using h))

theorem thas_of_mem {m : TSet} {kv : String × Option String} (h : kv ∈ m) :
    thas m kv.1 = true := by
  induction m with
  | nil => cases h
  | cons a rest ih =>
    rcases List.mem_cons.mp h with h | h
    · subst h; simp [thas_cons]
    · rw [thas_cons, ih h, Bool.or_true]

theorem mem_of_thas {m : TSet} {k : String} (h : thas m k = true) :
    ∃ v, (k, v) ∈ m := by
  rcases (thas_iff_tget m k).mp h with ⟨v, hv⟩
  exact ⟨v, tget_mem hv⟩

theorem thas_eq_mem_listKeys (m : TSet) (k : String) :
    thas m k = true ↔ k ∈ listKeys m := by
  constructor
  · intro h
    rcases mem_of_thas h with ⟨v, hv⟩
    exact List.mem_map.mpr ⟨(k, v), hv, rfl⟩
  · intro h
    rcases List.mem_map.mp h with ⟨kv, hkv, hk⟩
    have := thas_of_mem hkv
    rwa [hk] at this

theorem tget_append (m₁ m₂ : TSet) (k : String) :
    tget (m₁ ++ m₂) k = ((tget m₁ k).or (tget m₂ k)) := by
  induction m₁ with
  | nil =>
    show tget m₂ k = (Option.or none (tget m₂ k))
    simp
  | cons kv rest ih =>
    show tget (kv :: (rest ++ m₂)) k = _
    rw [tget_cons, tget_cons]
    by_cases h : kv.1 = k <;> simp [h, ih]

theorem tget_map_replace (m : TSet) (k : String) (v : Option String) (q : String) :
    tget (m.map (fun kv => if kv.1 = k then (k, v) else kv)) q =
      if q = k then (if thas m k then some v else none) else tget m q := by
  induction m with
  | nil => by_cases h : q = k <;> simp [h]
  | cons kv rest ih =>
    simp only [List.map_cons]
    by_cases h1 : kv.1 = k
    · rw [if_pos h1, tget_cons]
      by_cases h2 : q = k
      · have : (k, v).1 = q := by simpa using h2.symm
        rw [if_pos this, if_pos h2, thas_cons]
        have htrue : (decide (kv.1 = k) || thas rest k) = true := by simp [h1]
        rw [if_pos htrue]
      · have : ¬ (k, v).1 = q := by simpa using fun h => h2 h.symm
        rw [if_neg this, ih, if_neg h2, if_neg h2, tget_cons, if_neg (h1 ▸ fun h => h2 h.symm)]
    · rw [if_neg h1, tget_cons]
      by_cases h2 : kv.1 = q
      · rw [if_pos h2, tget_cons, if_pos h2, if_neg (fun h : q = k => h1 (h2.symm ▸ h))]
      · rw [if_neg h2, ih, tget_cons, if_neg h2, thas_cons]
        by_cases h3 : q = k
        · rw [if_pos h3, if_pos h3]
          have : decide (kv.1 = k) = false := by simpa using h1
          rw [this, Bool.false_or]
        · rw [if_neg h3, if_neg h3]

theorem tget_tset (m : TSet) (k : String) (v : Option String) (q : String) :
    tget (tset m k v) q = if q = k then some v else tget m q := by
  unfold tset
  by_cases hk : thas m k
  · rw [if_pos hk, tget_map_replace, if_pos hk]
  · rw [if_neg hk, tget_append]
    by_cases h2 : q = k
    · subst h2
      rw [tget_eq_none_of_thas_false (by simpa using hk)]
      simp [tget_cons]
    · rw [if_neg h2]
      have : tget [(k, v)] q = none := by
        rw [tget_cons, if_neg (by simpa using fun h : k = q => h2 h.symm)]
        rfl
      rw [this]
      cases tget m q <;> rfl

theorem thas_tset (m : TSet) (k : String) (v : Option String) (q : String) :
    thas (tset m k v) q = (decide (q = k) || thas m q) := by
  simp only [thas, tget_tset]
  by_cases h : q = k <;> simp [h]

theorem thas_tmerge (m add : TSet) (q : String) :
    thas (tmerge m add) q = (thas m q || thas add q) := by
  induction add generalizing m with
  | nil => simp [tmerge]
  | cons a rest ih =>
    show thas (tmerge (tset m a.1 a.2) rest) q = _
    rw [ih, thas_tset, thas_cons]
    by_cases h1 : q = a.1
    · simp [h1]
    · have h2 : ¬ a.1 = q := fun h => h1 h.symm
      simp [h1, h2]

theorem tget_tmerge (m add : TSet) (q : String)
    (hnd : (listKeys add).Nodup) :
    tget (tmerge m add) q = ((tget add q).or (tget m q)) := by
  induction add generalizing m with
  | nil => simp [tmerge]
  | cons a rest ih =>
    have hkeys : listKeys (a :: rest) = a.1 :: listKeys rest := rfl
    rw [hkeys, List.nodup_cons] at hnd
    show tget (tmerge (tset m a.1 a.2) rest) q = _
    rw [ih _ hnd.2, tget_cons]
    by_cases h1 : a.1 = q
    · have hrest : tget rest q = none := by
        apply tget_eq_none_of_thas_false
        rw [← Bool.not_eq_true]
        intro hc
        exact hnd.1 (h1 ▸ (thas_eq_mem_listKeys rest q).mp hc)
      rw [if_pos h1, hrest, tget_tset, if_pos h1.symm]
      rfl
    · rw [if_neg h1]
      cases hrq : tget rest q with
      | some v => rfl
      | none =>
        rw [tget_tset, if_neg (fun h => h1 h.symm)]

theorem listKeys_append (m₁ m₂ : TSet) :
    listKeys (m₁ ++ m₂) = listKeys m₁ ++ listKeys m₂ := by
  simp [listKeys]

/-! ## PO comment parsing (`src/file-formats/po/comment-parser.ts`)

Comment strings are processed character by character, mirroring the
JavaScript string operations (`split`, `trim`, `startsWith`, `substring`).
`jsTrim` models `String.prototype.trim` restricted to the ASCII whitespace
characters that can occur in PO comments. -/

/-- Whitespace recognised by the embedded `trim`. -/
def isJsSpace (c : Char) : Bool :=
  c = ' ' || c = '\t' || c = '\n' || c = '\r' || c = Char.ofNat 11 || c = Char.ofNat 12

/-- `String.prototype.split` with a single-character separator. -/
def splitOnChar (c : Char) : List Char → List (List Char)
  | [] => [[]]
  | x :: xs =>
    if x = c then [] :: splitOnChar c xs
    else
      match splitOnChar c xs with
      | [] => [[x]]
      | h :: t => (x :: h) :: t

/-- `String.prototype.trim`. -/
def jsTrim (l : List Char) : List Char :=
  ((l.dropWhile isJsSpace).reverse.dropWhile isJsSpace).reverse

/-- `String.prototype.startsWith`: does `s` start with the pattern `p`? -/
def startsWithL : List Char → List Char → Bool
  | [], _ => true
  | _ :: _, [] => false
  | p :: ps, x :: xs => p = x && startsWithL ps xs

/-- Parsed comment structure from PO file extracted comments (`#.`). -/
structure ParsedComment where
  /-- Languages that require manual translation. -/
  manual : List String
  /-- Context to be passed to the AI translation service. -/
  context : String
deriving DecidableEq, Repr

/-- `langList.split(",").map((lang) => lang.trim()).filter(Boolean)`. -/
def parseManualLangList (langList : List Char) : List String :=
  (((splitOnChar ',' langList).map jsTrim).filter (fun l => !l.isEmpty)).map String.mk

/-- One iteration of the `for (const line of lines)` loop of
`parseExtractedComment`; the state is `(result.manual, contextParts)`. -/
def commentStep (st : List String × List String) (line : List Char) :
    List String × List String :=
  let trimmedLine := jsTrim line
  if startsWithL "@manual:".toList trimmedLine then
    let langList := jsTrim (trimmedLine.drop 8)
    if langList.isEmpty then st
    else (parseManualLangList langList, st.2)
  else if startsWithL "@context:".toList trimmedLine then
    let contextText := jsTrim (trimmedLine.drop 9)
    if contextText.isEmpty then st
    else (st.1, st.2 ++ [String.mk contextText])
  else if !trimmedLine.isEmpty && !startsWithL ['@'] trimmedLine then
    (st.1, st.2 ++ [String.mk trimmedLine])
  else st

/-- Parse extracted comments from a PO file
(`parseExtractedComment` in `src/file-formats/po/comment-parser.ts`):
split the raw comment on newlines, trim each line, and interpret
`@manual:` / `@context:` directives; plain non-`@` text is context. -/
def parseExtractedComment (extracted : Option String) : ParsedComment :=
  match extracted with
  | none => { manual := [], context := "" }
  | some s =>
    if s = "" then { manual := [], context := "" }
    else
      let st := (splitOnChar '\n' s.toList).foldl commentStep ([], [])
      { manual := st.1, context := String.intercalate "\n" st.2 }

/-- `shouldSkipForManual`: the target language appears in the `@manual` list. -/
def shouldSkipForManual (parsedComment : ParsedComment) (targetLng : String) : Bool :=
  decide (targetLng ∈ parsedComment.manual)

/-- `hasManualMarking`: the `@manual` list is non-empty. -/
def hasManualMarking (parsedComment : ParsedComment) : Bool :=
  decide (0 < parsedComment.manual.length)

/-! ## Core data model (`src/core/core-definitions.ts`) -/

/-- Change set: added / updated / skipped / deleted (`TChangeSet`). -/
structure TChangeSet where
  skipped : TSet
  added : TSet
  updated : TSet
  deleted : Option TSet
deriving DecidableEq, Repr

/-- One reconciled service invocation (`TServiceInvocation`). -/
structure TServiceInvocation where
  inputs : TSet
  results : TSet
deriving DecidableEq, Repr

/-- Overall result of a run (`CoreResults`). -/
structure CoreResults where
  changeSet : TChangeSet
  serviceInvocation : Option TServiceInvocation
  newTarget : TSet
deriving DecidableEq, Repr

/-- The semantically relevant fields of `CoreArgs`; the service / matcher /
prompt / credential configuration is consumed only by the external service
boundary, which this development abstracts as the `backend` parameter. -/
structure CoreArgs where
  src : TSet
  srcLng : String
  srcFile : String
  oldTarget : Option TSet
  targetLng : String
  sourceOverride : List (String × String)
deriving DecidableEq, Repr

/-- `Map.get` on the source-override table. -/
def alookup : List (String × String) → String → Option String
  | [], _ => none
  | p :: rest, k => if p.1 = k then some p.2 else alookup rest k

/-- JavaScript truthiness of a `string | undefined` value. -/
def strTruthy : Option String → Bool
  | some s => !s.isEmpty
  | none => false

/-! ## Mapping set-operations

Modelled from the spec: `tset-ops.ts` is not under `src/`; `leftMinusRight`,
`selectLeftDistinct` and `joinResultsPreserveOrder` are defined from §4.1 of
the specification. -/

/-- The comparison modes of `selectLeftDistinct`. -/
inductive ComparisonMode where
  | compareKeys
  | compareKeysAndNullValues
  | compareValues
deriving DecidableEq, Repr

/-- Modelled from the spec (§4.1): the per-entry selection predicate of
`selectLeftDistinct` for each comparison mode. -/
def distinctPred (b : TSet) : ComparisonMode → String × Option String → Bool
  | .compareKeys, kv => !(thas b kv.1)
  | .compareKeysAndNullValues, kv => !(thas b kv.1) || decide (tget b kv.1 = some none)
  | .compareValues, kv =>
    match tget b kv.1 with
    | some w => decide (w ≠ kv.2)
    | none => false

/-- Modelled from the spec (§4.1): keys present in `a` that differ from `b`
under the comparison mode; values and order are taken from `a`. -/
def selectLeftDistinct (a b : TSet) (mode : ComparisonMode) : TSet :=
  a.filter (distinctPred b mode)

/-- Modelled from the spec (§4.1): keys present in `a` but absent from `b`,
values taken from `a`. -/
def leftMinusRight (a b : TSet) : TSet :=
  a.filter (fun kv => !(thas b kv.1))

/-- Modelled from the spec (§4.1): for every key of `src` in `src`'s order,
take the fresh result when present, else carry the old target's value
forward, else drop the key. The `changeSet` argument is part of the source
signature but is not consulted by the recipe. -/
def joinResultsPreserveOrder (translateResults : TSet) (changeSet : TChangeSet)
    (oldTarget : TSet) (src : TSet) : TSet :=
  src.filterMap (fun kv =>
    match tget translateResults kv.1 with
    | some v => some (kv.1, v)
    | none =>
      match tget oldTarget kv.1 with
      | some w => some (kv.1, w)
      | none => none)

/-! ## Override-source path resolution (`src/core/translate-core.ts`)

`path.dirname`, `path.extname` and `path.join` are Node library functions;
they are modelled here for POSIX paths without trailing, repeated or
otherwise degenerate slashes. -/

/-- Node `path.dirname` (POSIX, no trailing slashes). -/
def dirname (s : String) : String :=
  match s.toList.reverse.dropWhile (fun c => !decide (c = '/')) with
  | [] => "."
  | [_] => "/"
  | _ :: rest => String.mk rest.reverse

/-- Node `path.extname` (POSIX): the suffix of the basename starting at its
last dot; empty when the basename has no dot or only a leading dot. -/
def extname (s : String) : String :=
  let baseRev := s.toList.reverse.takeWhile (fun c => !decide (c = '/'))
  let extRev := baseRev.takeWhile (fun c => !decide (c = '.'))
  match baseRev.drop extRev.length with
  | [] => ""
  | [_] => ""
  | _ :: _ => String.mk ('.' :: extRev.reverse)

/-- Node `path.join` on a directory and a filename (POSIX, normalizing a
leading `.` segment away). -/
def pathJoin (d f : String) : String :=
  if d = "." then f else if d = "/" then "/" ++ f else d ++ "/" ++ f

/-- `inferOverrideSourcePath`: substitute the override language code into the
source file's name, keeping directory and extension
(e.g. `/path/to/en.po` with override `zh-Hans` becomes `/path/to/zh-Hans.po`). -/
def inferOverrideSourcePath (srcFile : String) (overrideLng : String) : String :=
  pathJoin (dirname srcFile) (overrideLng ++ extname srcFile)

/-- Modelled from the spec: the reader format used for the primary source.
The CLI layer that reads the primary source file is not under `src/`; per
§4.4 the tool reads PO catalogs, so the primary reader format is `"po"`. -/
def primarySourceFormat : String := "po"

/-- `readOverrideSource`: read the override source file through the file
reader, abstracted as `fs : format → path → Option TSet`; `none` models the
caught `FileError` (the catch branch emits a console warning and returns
`null`). -/
def readOverrideSource (fs : String → String → Option TSet)
    (srcFile : String) (overrideLng : String) : Option TSet :=
  fs "po" (inferOverrideSourcePath srcFile overrideLng)

/-! ## The translation core (`src/core/translate-core.ts`) -/

/-- The four routing buckets of `filterByManualMarking`
(`ManualFilterResult` in the source). -/
structure ManualFilterResult where
  toTranslate : TSet
  toSkip : TSet
  toCopyOriginal : TSet
  toTranslateFromOverride : TSet
deriving DecidableEq, Repr

/-- The routing bucket chosen for one key. -/
inductive Route where
  | toTranslate
  | toSkip
  | toCopyOriginal
  | toTranslateFromOverride
deriving DecidableEq, Repr

/-- The decision chain of the `inputs.forEach` body of
`filterByManualMarking`: no comment or no `@manual` marking routes to
translate; target language in the `@manual` list routes to skip; otherwise
a (truthy) override source language routes to override, else to copy. -/
def routeOf (parsed : Option ParsedComment) (targetLng : String)
    (hasOverride : Bool) : Route :=
  match parsed with
  | none => .toTranslate
  | some pc =>
    if !hasManualMarking pc then .toTranslate
    else if shouldSkipForManual pc targetLng then .toSkip
    else if hasOverride then .toTranslateFromOverride
    else .toCopyOriginal

/-- `filterByManualMarking`: partition `inputs` into the four buckets. The
source's `forEach` appends each entry to the bucket selected by the decision
chain, so each bucket is the order-preserving filter of `inputs` by its
route. The per-key comment lookup (`getParsedComments`, whose source
`po-files.ts` is not under `src/`) is abstracted as the `parsedComments`
parameter. -/
def filterByManualMarking (inputs : TSet) (args : CoreArgs)
    (parsedComments : String → Option ParsedComment) : ManualFilterResult :=
  let ov := strTruthy (alookup args.sourceOverride args.targetLng)
  { toTranslate := inputs.filter
      (fun kv => decide (routeOf (parsedComments kv.1) args.targetLng ov = .toTranslate)),
    toSkip := inputs.filter
      (fun kv => decide (routeOf (parsedComments kv.1) args.targetLng ov = .toSkip)),
    toCopyOriginal := inputs.filter
      (fun kv => decide (routeOf (parsedComments kv.1) args.targetLng ov = .toCopyOriginal)),
    toTranslateFromOverride := inputs.filter
      (fun kv => decide (routeOf (parsedComments kv.1) args.targetLng ov = .toTranslateFromOverride)) }

/-- `extractStringsToTranslate`: `none` models the fatal abort on an empty
source mapping; with no previous target everything is a candidate, else the
keys absent from the target or present with a null value. -/
def extractStringsToTranslate (args : CoreArgs) : Option TSet :=
  if args.src.length = 0 then none
  else
    match args.oldTarget with
    | none => some args.src
    | some oldTarget =>
      some (selectLeftDistinct args.src oldTarget .compareKeysAndNullValues)

/-- `extractStaleTranslations`: previous-target keys no longer in the source;
`none` when no previous target exists. -/
def extractStaleTranslations (args : CoreArgs) : Option TSet :=
  match args.oldTarget with
  | some oldTarget => some (leftMinusRight oldTarget args.src)
  | none => none

/-- `computeChangeSet`. -/
def computeChangeSet (args : CoreArgs)
    (serviceInvocation : Option TServiceInvocation) : TChangeSet :=
  let deleted := extractStaleTranslations args
  match serviceInvocation with
  | none => { added := [], updated := [], skipped := [], deleted := deleted }
  | some inv =>
    let skipped := selectLeftDistinct inv.inputs inv.results .compareKeys
    match args.oldTarget with
    | none => { added := inv.results, updated := [], skipped := skipped, deleted := deleted }
    | some oldTarget =>
      { added := selectLeftDistinct inv.results oldTarget .compareKeys,
        updated := selectLeftDistinct inv.results oldTarget .compareValues,
        skipped := skipped,
        deleted := deleted }

/-- `computeNewTarget`: prune deleted keys from the previous target, then
return it as-is when no service invocation happened, return the bare results
when no previous target exists, and reconcile through the order-preserving
join otherwise. (A JavaScript `Map` is truthy even when empty, so the prune
happens whenever both the previous target and `deleted` are non-null.) -/
def computeNewTarget (args : CoreArgs) (changeSet : TChangeSet)
    (serviceInvocation : Option TServiceInvocation) : TSet :=
  let oldTargetRef : Option TSet :=
    match args.oldTarget, changeSet.deleted with
    | some oldTarget, some deleted => some (leftMinusRight oldTarget deleted)
    | _, _ => args.oldTarget
  match serviceInvocation with
  | none => oldTargetRef.getD []
  | some inv =>
    match oldTargetRef with
    | none => inv.results
    | some oldTarget =>
      joinResultsPreserveOrder inv.results changeSet oldTarget args.src

/-- `computeCoreResults`. -/
def computeCoreResults (args : CoreArgs)
    (serviceInvocation : Option TServiceInvocation)
    (changeSet : TChangeSet) : CoreResults :=
  { changeSet := changeSet,
    serviceInvocation := serviceInvocation,
    newTarget := computeNewTarget args changeSet serviceInvocation }

/-- Modelled from the spec (§6): `invoke-translation-service.ts` is not under
`src/`. The boundary receives the batch and the run configuration and
returns a key-to-text mapping that may omit keys; the reconciled invocation
records the batch as `inputs` and the boundary's answer as `results`. The
backend itself is the external parameter `backend`. -/
def invokeTranslationService (backend : TSet → CoreArgs → TSet)
    (inputs : TSet) (args : CoreArgs) : TServiceInvocation :=
  { inputs := inputs, results := backend inputs args }

/-- Translate-Normal step of `translateCore`: invoke the service boundary
once when `toTranslate` is non-empty. -/
def stepTranslate (backend : TSet → CoreArgs → TSet) (args : CoreArgs)
    (filtered : ManualFilterResult) : Option TServiceInvocation :=
  if 1 ≤ filtered.toTranslate.length then
    some (invokeTranslationService backend filtered.toTranslate args)
  else none

/-- Copy-Original step of `translateCore`: inject every `toCopyOriginal`
entry into both `inputs` and `results`, initializing the accumulator when
no invocation happened yet. -/
def stepCopyOriginal (filtered : ManualFilterResult)
    (si : Option TServiceInvocation) : Option TServiceInvocation :=
  if 0 < filtered.toCopyOriginal.length then
    let base := si.getD { inputs := [], results := [] }
    some { inputs := tmerge base.inputs filtered.toCopyOriginal,
           results := tmerge base.results filtered.toCopyOriginal }
  else si

/-- The override-translation batch: entries of the bucket whose key has a
truthy (non-null, non-empty) value in the override source, carrying the
override source's value. -/
def buildOverrideInputs (bucket : TSet) (overrideSource : TSet) : TSet :=
  bucket.filterMap (fun kv =>
    match tget overrideSource kv.1 with
    | some (some s) => if s.isEmpty then none else some (kv.1, some s)
    | _ => none)

/-- Translate-Override step of `translateCore`: read the override source;
on success translate the resolvable keys with the override text and
language, on failure fall back to copying the original source text. -/
def stepOverride (backend : TSet → CoreArgs → TSet)
    (fs : String → String → Option TSet) (args : CoreArgs)
    (filtered : ManualFilterResult)
    (si : Option TServiceInvocation) : Option TServiceInvocation :=
  if 0 < filtered.toTranslateFromOverride.length then
    match alookup args.sourceOverride args.targetLng with
    | none => si
    | some overrideLng =>
      if overrideLng.isEmpty then si
      else
        match readOverrideSource fs args.srcFile overrideLng with
        | some overrideSource =>
          let overrideInputs :=
            buildOverrideInputs filtered.toTranslateFromOverride overrideSource
          if 0 < overrideInputs.length then
            let overrideResult := invokeTranslationService backend overrideInputs
              { args with src := overrideInputs, srcLng := overrideLng }
            let base := si.getD { inputs := [], results := [] }
            some { inputs := tmerge base.inputs overrideResult.inputs,
                   results := tmerge base.results overrideResult.results }
          else si
        | none =>
          let base := si.getD { inputs := [], results := [] }
          some { inputs := tmerge base.inputs filtered.toTranslateFromOverride,
                 results := tmerge base.results filtered.toTranslateFromOverride }
  else si

/-- `translateCore`: extract candidates, route them, run the three
translate / copy / override steps, classify, reconcile. `none` models the
fatal abort on an empty source mapping. -/
def translateCore (backend : TSet → CoreArgs → TSet)
    (parsedComments : String → Option ParsedComment)
    (fs : String → String → Option TSet) (args : CoreArgs) : Option CoreResults :=
  match extractStringsToTranslate args with
  | none => none
  | some rawServiceInputs =>
    let filtered := filterByManualMarking rawServiceInputs args parsedComments
    let si0 := stepTranslate backend args filtered
    let si1 := stepCopyOriginal filtered si0
    let si2 := stepOverride backend fs args filtered si1
    let changeSet := computeChangeSet args si2
    some (computeCoreResults args si2 changeSet)

/-! ## Lemmas about routing -/

theorem routeOf_eq_toTranslate (p : Option ParsedComment) (t : String) (ov : Bool) :
    routeOf p t ov = Route.toTranslate ↔
      (p = none ∨ ∃ pc, p = some pc ∧ pc.manual = []) := by
  cases p with
  | none => simp [routeOf]
  | some pc =>
    by_cases hm : pc.manual = []
    · simp [routeOf, hasManualMarking, hm]
    · have hlen : 0 < pc.manual.length := List.length_pos.mpr hm
      simp only [routeOf, hasManualMarking, shouldSkipForManual]
      by_cases hsk : t ∈ pc.manual <;> by_cases hov : ov = true <;>
        simp [hlen, hsk, hov, hm]

theorem routeOf_eq_toSkip (p : Option ParsedComment) (t : String) (ov : Bool) :
    routeOf p t ov = Route.toSkip ↔
      (∃ pc, p = some pc ∧ t ∈ pc.manual) := by
  cases p with
  | none => simp [routeOf]
  | some pc =>
    by_cases hm : pc.manual = []
    · simp [routeOf, hasManualMarking, hm]
    · have hlen : 0 < pc.manual.length := List.length_pos.mpr hm
      simp only [routeOf, hasManualMarking, shouldSkipForManual]
      by_cases hsk : t ∈ pc.manual <;> by_cases hov : ov = true <;>
        simp [hlen, hsk, hov]

theorem routeOf_eq_toTranslateFromOverride (p : Option ParsedComment) (t : String)
    (ov : Bool) :
    routeOf p t ov = Route.toTranslateFromOverride ↔
      (∃ pc, p = some pc ∧ pc.manual ≠ [] ∧ t ∉ pc.manual) ∧ ov = true := by
  cases p with
  | none => simp [routeOf]
  | some pc =>
    by_cases hm : pc.manual = []
    · simp [routeOf, hasManualMarking, hm]
    · have hlen : 0 < pc.manual.length := List.length_pos.mpr hm
      simp only [routeOf, hasManualMarking, shouldSkipForManual]
      by_cases hsk : t ∈ pc.manual <;> by_cases hov : ov = true <;>
        simp [hlen, hsk, hov, hm]

theorem routeOf_eq_toCopyOriginal (p : Option ParsedComment) (t : String)
    (ov : Bool) :
    routeOf p t ov = Route.toCopyOriginal ↔
      (∃ pc, p = some pc ∧ pc.manual ≠ [] ∧ t ∉ pc.manual) ∧ ov = false := by
  cases p with
  | none => simp [routeOf]
  | some pc =>
    by_cases hm : pc.manual = []
    · simp [routeOf, hasManualMarking, hm]
    · have hlen : 0 < pc.manual.length := List.length_pos.mpr hm
      simp only [routeOf, hasManualMarking, shouldSkipForManual]
      by_cases hsk : t ∈ pc.manual <;> by_cases hov : ov = true <;>
        simp [hlen, hsk, hov, hm]

theorem filterByManualMarking_bucket_lengths (inputs : TSet) (args : CoreArgs)
    (pcs : String → Option ParsedComment) :
    (filterByManualMarking inputs args pcs).toTranslate.length +
      (filterByManualMarking inputs args pcs).toSkip.length +
      (filterByManualMarking inputs args pcs).toCopyOriginal.length +
      (filterByManualMarking inputs args pcs).toTranslateFromOverride.length =
      inputs.length := by
  simp only [filterByManualMarking]
  induction inputs with
  | nil => rfl
  | cons kv rest ih =>
    simp only [List.filter_cons]
    cases hr : routeOf (pcs kv.1) args.targetLng
        (strTruthy (alookup args.sourceOverride args.targetLng)) <;>
      simp [hr, List.length_cons] <;> omega

theorem strTruthy_alookup_true {so : List (String × String)} {t : String}
    (hov : alookup so t ≠ some "") :
    strTruthy (alookup so t) = true ↔ ∃ lng, alookup so t = some lng := by
  cases h : alookup so t with
  | none => simp [strTruthy]
  | some s =>
    have hs : s ≠ "" := fun he => hov (he ▸ h)
    have hemp : s.isEmpty = false := by
      rw [Bool.eq_false_iff]
      intro ht
      exact hs ((String.isEmpty_iff s).mp ht)
    simp [strTruthy, hemp, hs]

theorem strTruthy_alookup_false {so : List (String × String)} {t : String}
    (hov : alookup so t ≠ some "") :
    strTruthy (alookup so t) = false ↔ alookup so t = none := by
  cases h : alookup so t with
  | none => simp [strTruthy]
  | some s =>
    have hs : s ≠ "" := fun he => hov (he ▸ h)
    have hemp : s.isEmpty = false := by
      rw [Bool.eq_false_iff]
      intro ht
      exact hs ((String.isEmpty_iff s).mp ht)
    simp [strTruthy, hemp, hs]

/-- C1: the Manual-Routing Filter partitions the candidate set — the four
buckets' sizes sum to the candidate count, membership in each bucket is
exactly the decision table's condition (no comment or empty manual list:
translate; target language in the manual list: skip; otherwise with an
override entry for the target language: translate-from-override; without
one: copy original), and the buckets are pairwise disjoint. -/
theorem c1_manual_routing_partition
    (inputs : TSet) (args : CoreArgs) (pcs : String → Option ParsedComment)
    (hov : alookup args.sourceOverride args.targetLng ≠ some "") :
    ((filterByManualMarking inputs args pcs).toTranslate.length +
      (filterByManualMarking inputs args pcs).toSkip.length +
      (filterByManualMarking inputs args pcs).toCopyOriginal.length +
      (filterByManualMarking inputs args pcs).toTranslateFromOverride.length =
      inputs.length) ∧
    (∀ kv : String × Option String,
      (kv ∈ (filterByManualMarking inputs args pcs).toTranslate ↔
        kv ∈ inputs ∧ (pcs kv.1 = none ∨ ∃ pc, pcs kv.1 = some pc ∧ pc.manual = [])) ∧
      (kv ∈ (filterByManualMarking inputs args pcs).toSkip ↔
        kv ∈ inputs ∧ ∃ pc, pcs kv.1 = some pc ∧ args.targetLng ∈ pc.manual) ∧
      (kv ∈ (filterByManualMarking inputs args pcs).toTranslateFromOverride ↔
        kv ∈ inputs ∧
          (∃ pc, pcs kv.1 = some pc ∧ pc.manual ≠ [] ∧ args.targetLng ∉ pc.manual) ∧
          ∃ lng, alookup args.sourceOverride args.targetLng = some lng) ∧
      (kv ∈ (filterByManualMarking inputs args pcs).toCopyOriginal ↔
        kv ∈ inputs ∧
          (∃ pc, pcs kv.1 = some pc ∧ pc.manual ≠ [] ∧ args.targetLng ∉ pc.manual) ∧
          alookup args.sourceOverride args.targetLng = none)) ∧
    (∀ kv : String × Option String,
      (kv ∈ (filterByManualMarking inputs args pcs).toTranslate →
        kv ∉ (filterByManualMarking inputs args pcs).toSkip ∧
        kv ∉ (filterByManualMarking inputs args pcs).toCopyOriginal ∧
        kv ∉ (filterByManualMarking inputs args pcs).toTranslateFromOverride) ∧
      (kv ∈ (filterByManualMarking inputs args pcs).toSkip →
        kv ∉ (filterByManualMarking inputs args pcs).toCopyOriginal ∧
        kv ∉ (filterByManualMarking inputs args pcs).toTranslateFromOverride) ∧
      (kv ∈ (filterByManualMarking inputs args pcs).toCopyOriginal →
        kv ∉ (filterByManualMarking inputs args pcs).toTranslateFromOverride)) := by
  refine ⟨filterByManualMarking_bucket_lengths inputs args pcs,
    fun kv => ⟨?_, ?_, ?_, ?_⟩, fun kv => ⟨?_, ?_, ?_⟩⟩
  · simp only [filterByManualMarking, List.mem_filter, decide_eq_true_eq]
    rw [routeOf_eq_toTranslate]
  · simp only [filterByManualMarking, List.mem_filter, decide_eq_true_eq]
    rw [routeOf_eq_toSkip]
  · simp only [filterByManualMarking, List.mem_filter, decide_eq_true_eq]
    rw [routeOf_eq_toTranslateFromOverride]
    constructor
    · rintro ⟨hin, hx, hov'⟩
      exact ⟨hin, hx, (strTruthy_alookup_true hov).mp hov'⟩
    · rintro ⟨hin, hx, hlng⟩
      exact ⟨hin, hx, (strTruthy_alookup_true hov).mpr hlng⟩
  · simp only [filterByManualMarking, List.mem_filter, decide_eq_true_eq]
    rw [routeOf_eq_toCopyOriginal]
    constructor
    · rintro ⟨hin, hx, hov'⟩
      exact ⟨hin, hx, (strTruthy_alookup_false hov).mp hov'⟩
    · rintro ⟨hin, hx, hnone⟩
      exact ⟨hin, hx, (strTruthy_alookup_false hov).mpr hnone⟩
  · intro h1
    simp only [filterByManualMarking, List.mem_filter, decide_eq_true_eq] at h1 ⊢
    refine ⟨fun h2 => ?_, fun h2 => ?_, fun h2 => ?_⟩ <;>
      rw [h1.2] at h2 <;> exact absurd h2.2 (by decide)
  · intro h1
    simp only [filterByManualMarking, List.mem_filter, decide_eq_true_eq] at h1 ⊢
    refine ⟨fun h2 => ?_, fun h2 => ?_⟩ <;>
      rw [h1.2] at h2 <;> exact absurd h2.2 (by decide)
  · intro h1
    simp only [filterByManualMarking, List.mem_filter, decide_eq_true_eq] at h1 ⊢
    intro h2
    rw [h1.2] at h2
    exact absurd h2.2 (by decide)

/-- Witness for C1 at a concrete three-key candidate set: one unannotated
key, one key manually marked for the target language, one key marked for a
different language with an override entry configured. -/
theorem c1_manual_routing_partition_witness :
    alookup [("de", "zh-Hans")] "de" ≠ some "" ∧
    ((filterByManualMarking
        [("a", some "x"), ("b", some "y"), ("c", some "z")]
        { src := [("a", some "x"), ("b", some "y"), ("c", some "z")],
          srcLng := "en", srcFile := "locales/en.po", oldTarget := none,
          targetLng := "de", sourceOverride := [("de", "zh-Hans")] }
        (fun k =>
          if k = "b" then some { manual := ["de"], context := "" }
          else if k = "c" then some { manual := ["fr"], context := "" }
          else none)).toTranslate.length +
      (filterByManualMarking
        [("a", some "x"), ("b", some "y"), ("c", some "z")]
        { src := [("a", some "x"), ("b", some "y"), ("c", some "z")],
          srcLng := "en", srcFile := "locales/en.po", oldTarget := none,
          targetLng := "de", sourceOverride := [("de", "zh-Hans")] }
        (fun k =>
          if k = "b" then some { manual := ["de"], context := "" }
          else if k = "c" then some { manual := ["fr"], context := "" }
          else none)).toSkip.length +
      (filterByManualMarking
        [("a", some "x"), ("b", some "y"), ("c", some "z")]
        { src := [("a", some "x"), ("b", some "y"), ("c", some "z")],
          srcLng := "en", srcFile := "locales/en.po", oldTarget := none,
          targetLng := "de", sourceOverride := [("de", "zh-Hans")] }
        (fun k =>
          if k = "b" then some { manual := ["de"], context := "" }
          else if k = "c" then some { manual := ["fr"], context := "" }
          else none)).toCopyOriginal.length +
      (filterByManualMarking
        [("a", some "x"), ("b", some "y"), ("c", some "z")]
        { src := [("a", some "x"), ("b", some "y"), ("c", some "z")],
          srcLng := "en", srcFile := "locales/en.po", oldTarget := none,
          targetLng := "de", sourceOverride := [("de", "zh-Hans")] }
        (fun k =>
          if k = "b" then some { manual := ["de"], context := "" }
          else if k = "c" then some { manual := ["fr"], context := "" }
          else none)).toTranslateFromOverride.length = 3) :=
  ⟨by decide,
    (c1_manual_routing_partition
      [("a", some "x"), ("b", some "y"), ("c", some "z")]
      { src := [("a", some "x"), ("b", some "y"), ("c", some "z")],
        srcLng := "en", srcFile := "locales/en.po", oldTarget := none,
        targetLng := "de", sourceOverride := [("de", "zh-Hans")] }
      (fun k =>
        if k = "b" then some { manual := ["de"], context := "" }
        else if k = "c" then some { manual := ["fr"], context := "" }
        else none)
      (by decide)).1⟩

/-! ## Lemmas about the set operations -/

theorem tget_filter_key (m : TSet) (p : String → Bool) (k : String) :
    tget (m.filter (fun kv => p kv.1)) k = if p k then tget m k else none := by
  induction m with
  | nil => by_cases h : p k <;> simp [h]
  | cons kv rest ih =>
    rw [List.filter_cons]
    by_cases hp : p kv.1
    · rw [if_pos hp, tget_cons]
      by_cases hk : kv.1 = k
      · rw [if_pos hk, if_pos (hk ▸ hp), tget_cons, if_pos hk]
      · rw [if_neg hk, ih, tget_cons, if_neg hk]
    · rw [if_neg hp, ih]
      by_cases hk : kv.1 = k
      · rw [if_neg (hk ▸ hp), if_neg (hk ▸ hp)]
      · rw [tget_cons, if_neg hk]

theorem distinctPred_compareKeys_iff (b : TSet) (kv : String × Option String) :
    distinctPred b .compareKeys kv = true ↔ thas b kv.1 = false := by
  simp [distinctPred]

theorem distinctPred_keysNull_iff (b : TSet) (kv : String × Option String) :
    distinctPred b .compareKeysAndNullValues kv = true ↔
      (thas b kv.1 = false ∨ tget b kv.1 = some none) := by
  simp [distinctPred]

theorem distinctPred_compareValues_iff (b : TSet) (kv : String × Option String) :
    distinctPred b .compareValues kv = true ↔
      ∃ w, tget b kv.1 = some w ∧ w ≠ kv.2 := by
  simp only [distinctPred]
  cases h : tget b kv.1 <;> simp [h]

theorem mem_leftMinusRight (a b : TSet) (kv : String × Option String) :
    kv ∈ leftMinusRight a b ↔ kv ∈ a ∧ thas b kv.1 = false := by
  simp [leftMinusRight, List.mem_filter]

theorem tget_leftMinusRight (a b : TSet) (k : String) :
    tget (leftMinusRight a b) k = if thas b k then none else tget a k := by
  unfold leftMinusRight
  rw [tget_filter_key a (fun q => !(thas b q)) k]
  by_cases h : thas b k <;> simp [h]

theorem leftMinusRight_nil_right (a : TSet) : leftMinusRight a [] = a := by
  unfold leftMinusRight
  induction a with
  | nil => rfl
  | cons kv rest ih => rw [List.filter_cons, if_pos (by simp), ih]

/-- C4: candidate extraction — with no previous target every source key is a
candidate; with a previous target exactly the source keys absent from it or
present with a null value are candidates; in particular a null-valued
previous-target entry re-selects its key. -/
theorem c4_extract_candidates (args : CoreArgs) (hne : args.src ≠ []) :
    (args.oldTarget = none → extractStringsToTranslate args = some args.src) ∧
    (∀ t : TSet, args.oldTarget = some t →
      extractStringsToTranslate args =
        some (selectLeftDistinct args.src t .compareKeysAndNullValues) ∧
      (∀ kv : String × Option String,
        kv ∈ selectLeftDistinct args.src t .compareKeysAndNullValues ↔
          kv ∈ args.src ∧ (thas t kv.1 = false ∨ tget t kv.1 = some none)) ∧
      (∀ kv : String × Option String, kv ∈ args.src → tget t kv.1 = some none →
        kv ∈ selectLeftDistinct args.src t .compareKeysAndNullValues)) := by
  have hlen : ¬ args.src.length = 0 := by
    simpa [List.length_eq_zero] using hne
  constructor
  · intro h0
    simp [extractStringsToTranslate, hlen, h0]
  · intro t ht
    refine ⟨by simp [extractStringsToTranslate, hlen, ht], fun kv => ?_, fun kv hin hnull => ?_⟩
    · rw [selectLeftDistinct, List.mem_filter, distinctPred_keysNull_iff]
    · rw [selectLeftDistinct, List.mem_filter, distinctPred_keysNull_iff]
      exact ⟨hin, Or.inr hnull⟩

/-- Witness for C4: source `{a: "x", k: "y"}` with previous target
`{k: null}` re-selects `k` as a candidate. -/
theorem c4_extract_candidates_witness :
    ([("a", some "x"), ("k", some "y")] : TSet) ≠ [] ∧
    ("k", some "y") ∈
      selectLeftDistinct [("a", some "x"), ("k", some "y")] [("k", none)]
        .compareKeysAndNullValues :=
  ⟨by decide,
    (((c4_extract_candidates
      { src := [("a", some "x"), ("k", some "y")], srcLng := "en",
        srcFile := "locales/en.po", oldTarget := some [("k", none)],
        targetLng := "de", sourceOverride := [] }
      (by decide)).2 [("k", none)] rfl).2.2 ("k", some "y")
        (by decide) (by decide))⟩

/-- C3: the change set — `deleted` is the previous target minus the current
source (null without a previous target); `skipped` is the invocation's
inputs absent from its results; with no previous target `added` is all of
the results and `updated` is empty; with one, `added` is the result entries
whose key is absent from the previous target and `updated` the result
entries present there with a different value; with no invocation all three
are empty and only `deleted` is populated. -/
theorem c3_change_set_classification (args : CoreArgs) (inv : TServiceInvocation) :
    ((computeChangeSet args (some inv)).deleted = none ↔ args.oldTarget = none) ∧
    (∀ t : TSet, args.oldTarget = some t →
      (computeChangeSet args (some inv)).deleted = some (leftMinusRight t args.src) ∧
      ∀ kv : String × Option String,
        kv ∈ leftMinusRight t args.src ↔ kv ∈ t ∧ thas args.src kv.1 = false) ∧
    (∀ kv : String × Option String,
      kv ∈ (computeChangeSet args (some inv)).skipped ↔
        kv ∈ inv.inputs ∧ thas inv.results kv.1 = false) ∧
    (args.oldTarget = none →
      (computeChangeSet args (some inv)).added = inv.results ∧
      (computeChangeSet args (some inv)).updated = []) ∧
    (∀ t : TSet, args.oldTarget = some t →
      (∀ kv : String × Option String,
        kv ∈ (computeChangeSet args (some inv)).added ↔
          kv ∈ inv.results ∧ thas t kv.1 = false) ∧
      (∀ kv : String × Option String,
        kv ∈ (computeChangeSet args (some inv)).updated ↔
          kv ∈ inv.results ∧ ∃ w, tget t kv.1 = some w ∧ w ≠ kv.2)) ∧
    (computeChangeSet args none =
      { added := [], updated := [], skipped := [],
        deleted := (computeChangeSet args (some inv)).deleted }) := by
  refine ⟨?_, fun t ht => ⟨?_, fun kv => ?_⟩, fun kv => ?_, fun h0 => ⟨?_, ?_⟩,
    fun t ht => ⟨fun kv => ?_, fun kv => ?_⟩, ?_⟩
  · cases h : args.oldTarget <;>
      simp [computeChangeSet, extractStaleTranslations, h]
  · cases h0 : args.oldTarget <;> rw [h0] at ht <;>
      simp_all [computeChangeSet, extractStaleTranslations]
  · exact mem_leftMinusRight t args.src kv
  · cases h : args.oldTarget <;>
      simp [computeChangeSet, h, selectLeftDistinct, List.mem_filter,
        distinctPred_compareKeys_iff]
  · simp [computeChangeSet, h0]
  · simp [computeChangeSet, h0]
  · simp only [computeChangeSet, ht]
    rw [selectLeftDistinct, List.mem_filter]
    simp only [distinctPred_compareKeys_iff]
  · simp only [computeChangeSet, ht]
    rw [selectLeftDistinct, List.mem_filter]
    simp only [distinctPred_compareValues_iff]
  · cases h : args.oldTarget <;> simp [computeChangeSet, h]

/-- Witness for C3: previous target `{a: "1", b: "2"}` and current source
`{a: "x"}` classify `b` as deleted (the spec's deletion-detection example). -/
theorem c3_change_set_classification_witness :
    (computeChangeSet
      { src := [("a", some "x")], srcLng := "en", srcFile := "locales/en.po",
        oldTarget := some [("a", some "1"), ("b", some "2")],
        targetLng := "de", sourceOverride := [] }
      (some { inputs := [], results := [] })).deleted =
      some (leftMinusRight [("a", some "1"), ("b", some "2")] [("a", some "x")]) :=
  (((c3_change_set_classification
    { src := [("a", some "x")], srcLng := "en", srcFile := "locales/en.po",
      oldTarget := some [("a", some "1"), ("b", some "2")],
      targetLng := "de", sourceOverride := [] }
    { inputs := [], results := [] }).2.1
      [("a", some "1"), ("b", some "2")] rfl).1)

/-! ## Claims about the comment parser -/

/-- C7: the parser does not split lines on semicolons — the documented
single-line form keeps the whole remainder as one manual-language entry and
produces no context. -/
theorem c7_semicolon_line_not_split :
    parseExtractedComment (some "@manual:zh-Hans; @context:text") =
      { manual := ["zh-Hans; @context:text"], context := "" } ∧
    (parseExtractedComment (some "@manual:zh-Hans; @context:text")).manual ≠
      ["zh-Hans"] ∧
    (parseExtractedComment (some "@manual:zh-Hans; @context:text")).context ≠
      "text" :=
  ⟨by decide, by decide, by decide⟩

/-- Counterexample for C8: a trailing `@manual:` directive with an empty
remainder does not replace the manual list — the parser keeps the previous
directive's list `["de"]`, while the claim's last-directive rule would give
the empty replacement (whether read as `[]` or `[""]`). -/
theorem c8_counterexample_empty_last_directive :
    (parseExtractedComment (some "@manual:de\n@manual:")).manual = ["de"] ∧
    (parseExtractedComment (some "@manual:de\n@manual:")).manual ≠ [] ∧
    (parseExtractedComment (some "@manual:de\n@manual:")).manual ≠ [""] :=
  ⟨by decide, by decide, by decide⟩

/-- The `@manual:` replacement list carried by one comment line, if any: the
trimmed line must start with `@manual:` and its trimmed remainder must be
non-empty. -/
def lineManualUpdate (line : List Char) : Option (List String) :=
  let trimmedLine := jsTrim line
  if startsWithL "@manual:".toList trimmedLine then
    let langList := jsTrim (trimmedLine.drop 8)
    if langList.isEmpty then none else some (parseManualLangList langList)
  else none

theorem commentStep_fst (st : List String × List String) (line : List Char) :
    (commentStep st line).1 = (lineManualUpdate line).getD st.1 := by
  simp only [commentStep, lineManualUpdate]
  by_cases h1 : startsWithL "@manual:".toList (jsTrim line) = true
  · rw [if_pos h1, if_pos h1]
    by_cases h2 : (jsTrim ((jsTrim line).drop 8)).isEmpty = true
    · rw [if_pos h2, if_pos h2]
      rfl
    · rw [if_neg h2, if_neg h2]
      rfl
  · rw [if_neg h1, if_neg h1, Option.getD_none]
    by_cases h3 : startsWithL "@context:".toList (jsTrim line) = true
    · rw [if_pos h3]
      by_cases h4 : (jsTrim ((jsTrim line).drop 9)).isEmpty = true
      · rw [if_pos h4]
      · rw [if_neg h4]
    · rw [if_neg h3]
      by_cases h5 : (!(jsTrim line).isEmpty && !startsWithL ['@'] (jsTrim line)) = true
      · rw [if_pos h5]
      · rw [if_neg h5]

theorem getLast?_getD_cons {α : Type} (u d : α) (l : List α) :
    ((u :: l).getLast?).getD d = (l.getLast?).getD u := by
  induction l generalizing u d with
  | nil => rfl
  | cons x xs ih =>
    rw [List.getLast?_cons_cons, ih x d, ih x u]

theorem commentFold_manual (lines : List (List Char))
    (st : List String × List String) :
    ((lines.foldl commentStep st).1) =
      ((lines.filterMap lineManualUpdate).getLast?).getD st.1 := by
  induction lines generalizing st with
  | nil => rfl
  | cons l ls ih =>
    rw [List.foldl_cons, ih, List.filterMap_cons]
    cases hu : lineManualUpdate l with
    | none => rw [commentStep_fst, hu, Option.getD_none]
    | some u =>
      rw [getLast?_getD_cons, commentStep_fst, hu, Option.getD_some]

/-- C8 (amended): every `@manual:` directive whose trimmed remainder is
non-empty replaces the manual-language list, and a directive with an empty
remainder leaves it unchanged; hence the final manual-language list equals
the comma-split, trimmed, empties-discarded remainder of the last
`@manual:` directive with a non-empty remainder (empty if there is none). -/
theorem c8_last_nonempty_manual_directive_wins (s : String) :
    (parseExtractedComment (some s)).manual =
      (((splitOnChar '\n' s.toList).filterMap lineManualUpdate).getLast?).getD [] := by
  by_cases hs : s = ""
  · subst hs; rfl
  · simp only [parseExtractedComment, if_neg hs]
    exact commentFold_manual (splitOnChar '\n' s.toList) ([], [])

/-! ## Claims about override-source resolution -/

theorem dropWhile_append_all {p : Char → Bool} (xs ys : List Char)
    (h : ∀ x ∈ xs, p x = true) :
    (xs ++ ys).dropWhile p = ys.dropWhile p := by
  induction xs with
  | nil => rfl
  | cons x xt ih =>
    rw [List.cons_append, List.dropWhile_cons, if_pos (h x (List.mem_cons_self x xt))]
    exact ih (fun y hy => h y (List.mem_cons_of_mem x hy))

theorem takeWhile_append_all {p : Char → Bool} (xs ys : List Char)
    (h : ∀ x ∈ xs, p x = true) :
    (xs ++ ys).takeWhile p = xs ++ ys.takeWhile p := by
  induction xs with
  | nil => rfl
  | cons x xt ih =>
    rw [List.cons_append, List.takeWhile_cons, if_pos (h x (List.mem_cons_self x xt)),
      ih (fun y hy => h y (List.mem_cons_of_mem x hy)), List.cons_append]

theorem toList_append_parts (d n e : String) :
    (d ++ "/" ++ n ++ "." ++ e).toList =
      d.toList ++ '/' :: (n.toList ++ '.' :: e.toList) := by
  show (d ++ "/" ++ n ++ "." ++ e).data = d.data ++ '/' :: (n.data ++ '.' :: e.data)
  simp only [String.data_append]
  show d.data ++ ['/'] ++ n.data ++ ['.'] ++ e.data = _
  simp [List.append_assoc]

theorem toList_ne_nil_of_ne_empty {s : String} (h : s ≠ "") : s.toList ≠ [] := by
  intro hc
  apply h
  cases s with
  | mk l =>
    have : l = [] := hc
    rw [this]

/-- C9: override-source path resolution substitutes the override language
code into the source file's name, preserving its directory and extension;
and the override file is read with the same reader format as the primary
source. -/
theorem c9_override_path_resolution (d n e lng : String)
    (hd0 : d ≠ "") (hd1 : d ≠ ".") (hd2 : d ≠ "/")
    (hn0 : n ≠ "") (hn : ∀ c ∈ n.toList, c ≠ '/')
    (he1 : ∀ c ∈ e.toList, c ≠ '/') (he2 : ∀ c ∈ e.toList, c ≠ '.') :
    inferOverrideSourcePath (d ++ "/" ++ n ++ "." ++ e) lng =
      d ++ "/" ++ lng ++ "." ++ e ∧
    (∀ (fs : String → String → Option TSet) (srcFile overrideLng : String),
      readOverrideSource fs srcFile overrideLng =
        fs primarySourceFormat (inferOverrideSourcePath srcFile overrideLng)) := by
  constructor
  · have hrev : (d ++ "/" ++ n ++ "." ++ e).toList.reverse =
        e.toList.reverse ++ '.' :: (n.toList.reverse ++ '/' :: d.toList.reverse) := by
      rw [toList_append_parts]
      simp [List.reverse_append, List.reverse_cons, List.append_assoc]
    have hpe : ∀ c ∈ e.toList.reverse, (!decide (c = '/')) = true := by
      intro c hc
      simp [he1 c (List.mem_reverse.mp hc)]
    have hpn : ∀ c ∈ n.toList.reverse, (!decide (c = '/')) = true := by
      intro c hc
      simp [hn c (List.mem_reverse.mp hc)]
    have hdot : (!decide (('.' : Char) = '/')) = true := by decide
    have hslash : (!decide (('/' : Char) = '/')) = false := by decide
    have hdrop : (d ++ "/" ++ n ++ "." ++ e).toList.reverse.dropWhile
        (fun c => !decide (c = '/')) = '/' :: d.toList.reverse := by
      rw [hrev, dropWhile_append_all _ _ hpe, List.dropWhile_cons, if_pos hdot,
        dropWhile_append_all _ _ hpn, List.dropWhile_cons, if_neg (by simp [hslash])]
    have hdir : dirname (d ++ "/" ++ n ++ "." ++ e) = d := by
      unfold dirname
      rw [hdrop]
      cases hd : d.toList.reverse with
      | nil =>
        exact absurd (by simpa using congrArg List.reverse hd)
          (toList_ne_nil_of_ne_empty hd0)
      | cons c cs =>
        show String.mk (c :: cs).reverse = d
        rw [← hd, List.reverse_reverse]
        cases d with
        | mk l => rfl
    have hbase : (d ++ "/" ++ n ++ "." ++ e).toList.reverse.takeWhile
        (fun c => !decide (c = '/')) =
          e.toList.reverse ++ '.' :: n.toList.reverse := by
      rw [hrev, takeWhile_append_all _ _ hpe, List.takeWhile_cons, if_pos hdot,
        takeWhile_append_all _ _ hpn, List.takeWhile_cons, if_neg (by simp [hslash])]
      simp
    have hpe2 : ∀ c ∈ e.toList.reverse, (!decide (c = '.')) = true := by
      intro c hc
      simp [he2 c (List.mem_reverse.mp hc)]
    have hextRev : (e.toList.reverse ++ '.' :: n.toList.reverse).takeWhile
        (fun c => !decide (c = '.')) = e.toList.reverse := by
      rw [takeWhile_append_all _ _ hpe2, List.takeWhile_cons,
        if_neg (by simp)]
      simp
    have hdroplen : (e.toList.reverse ++ '.' :: n.toList.reverse).drop
        e.toList.reverse.length = '.' :: n.toList.reverse :=
      List.drop_left _ _
    have hext : extname (d ++ "/" ++ n ++ "." ++ e) = "." ++ e := by
      simp only [extname]
      rw [hbase, hextRev, hdroplen]
      cases hnrev : n.toList.reverse with
      | nil =>
        exact absurd (by simpa using congrArg List.reverse hnrev)
          (toList_ne_nil_of_ne_empty hn0)
      | cons c cs =>
        show String.mk ('.' :: e.toList.reverse.reverse) = "." ++ e
        rw [List.reverse_reverse]
        apply String.ext
        show '.' :: e.data = ("." ++ e).data
        rw [String.data_append]
        rfl
    unfold inferOverrideSourcePath
    rw [hdir, hext, pathJoin, if_neg hd1, if_neg hd2]
    apply String.ext
    simp [String.data_append, List.append_assoc]
  · intro fs srcFile overrideLng
    rfl

/-- Witness for C9 at the spec's example: `locales/en.po` with override
language `zh-Hans` resolves to `locales/zh-Hans.po`. -/
theorem c9_override_path_resolution_witness :
    inferOverrideSourcePath ("locales" ++ "/" ++ "en" ++ "." ++ "po") "zh-Hans" =
      "locales" ++ "/" ++ "zh-Hans" ++ "." ++ "po" :=
  (c9_override_path_resolution "locales" "en" "po" "zh-Hans"
    (by decide) (by decide) (by decide) (by decide)
    (by decide) (by decide) (by decide)).1

/-! ## Lemmas about the reconciling join -/

theorem listKeys_cons (kv : String × Option String) (m : TSet) :
    listKeys (kv :: m) = kv.1 :: listKeys m := rfl

theorem tget_join (r : TSet) (cs : TChangeSet) (t src : TSet) (k : String) :
    tget (joinResultsPreserveOrder r cs t src) k =
      if thas src k then ((tget r k).or (tget t k)) else none := by
  induction src with
  | nil => simp [joinResultsPreserveOrder]
  | cons kv rest ih =>
    rw [joinResultsPreserveOrder, List.filterMap_cons]
    rw [joinResultsPreserveOrder] at ih
    by_cases hk : kv.1 = k
    · subst hk
      rw [thas_cons, if_pos (by simp : (decide (kv.1 = kv.1) || thas rest kv.1) = true)]
      cases hr : tget r kv.1 with
      | some v =>
        simp only [hr]
        rw [tget_cons, if_pos rfl]
        rfl
      | none =>
        cases ht : tget t kv.1 with
        | some w =>
          simp only [hr, ht]
          rw [tget_cons, if_pos rfl]
          rfl
        | none =>
          simp only [hr, ht]
          rw [ih]
          by_cases hrest : thas rest kv.1 = true
          · rw [if_pos hrest, hr, ht]
          · rw [if_neg hrest]
            rfl
    · have hd : decide (kv.1 = k) = false := by simpa using hk
      rw [thas_cons, hd, Bool.false_or]
      cases hr : tget r kv.1 with
      | some v =>
        simp only [hr]
        rw [tget_cons, if_neg hk, ih]
      | none =>
        cases ht : tget t kv.1 with
        | some w =>
          simp only [hr, ht]
          rw [tget_cons, if_neg hk, ih]
        | none =>
          simp only [hr, ht]
          rw [ih]

theorem listKeys_join (r : TSet) (cs : TChangeSet) (t src : TSet) :
    listKeys (joinResultsPreserveOrder r cs t src) =
      (listKeys src).filter (fun k => thas r k || thas t k) := by
  induction src with
  | nil => rfl
  | cons kv rest ih =>
    rw [joinResultsPreserveOrder, List.filterMap_cons]
    rw [joinResultsPreserveOrder] at ih
    rw [listKeys_cons, List.filter_cons]
    cases hr : tget r kv.1 with
    | some v =>
      simp only [hr]
      rw [if_pos (show (thas r kv.1 || thas t kv.1) = true by simp [thas, hr])]
      rw [listKeys_cons, ih]
    | none =>
      cases ht : tget t kv.1 with
      | some w =>
        simp only [hr, ht]
        rw [if_pos (show (thas r kv.1 || thas t kv.1) = true by simp [thas, hr, ht])]
        rw [listKeys_cons, ih]
      | none =>
        simp only [hr, ht]
        rw [if_neg (show ¬ (thas r kv.1 || thas t kv.1) = true by simp [thas, hr, ht])]
        exact ih

theorem computeChangeSet_deleted (args : CoreArgs)
    (si : Option TServiceInvocation) :
    (computeChangeSet args si).deleted = extractStaleTranslations args := by
  cases si <;> cases h : args.oldTarget <;> simp [computeChangeSet, h]

/-- C10: no key of the change set's `deleted` mapping appears in the new
target — stale keys are pruned from the carried-forward previous target
before reconciliation, also in runs with no service invocation. -/
theorem c10_deleted_absent_from_new_target
    (backend : TSet → CoreArgs → TSet) (pcs : String → Option ParsedComment)
    (fs : String → String → Option TSet) (args : CoreArgs)
    (res : CoreResults) (d : TSet) (k : String) (v : Option String)
    (hrun : translateCore backend pcs fs args = some res)
    (hdel : res.changeSet.deleted = some d)
    (hk : (k, v) ∈ d) :
    thas res.newTarget k = false := by
  cases hx : extractStringsToTranslate args with
  | none => rw [translateCore, hx] at hrun; cases hrun
  | some raw =>
    rw [translateCore, hx] at hrun
    cases hrun
    rw [computeCoreResults] at hdel ⊢
    simp only at hdel ⊢
    rw [computeChangeSet_deleted] at hdel
    cases ho : args.oldTarget with
    | none => rw [extractStaleTranslations, ho] at hdel; cases hdel
    | some t =>
      rw [extractStaleTranslations, ho] at hdel
      have hd : d = leftMinusRight t args.src := by
        cases hdel
        rfl
      have hmem := (mem_leftMinusRight t args.src (k, v)).mp (hd ▸ hk)
      have hsrc : thas args.src k = false := hmem.2
      have hdk : thas d k = true := thas_of_mem hk
      subst hd
      simp only [computeNewTarget.eq_def, computeChangeSet_deleted,
        extractStaleTranslations, ho]
      cases hsi : stepOverride backend fs args
          (filterByManualMarking raw args pcs)
          (stepCopyOriginal (filterByManualMarking raw args pcs)
            (stepTranslate backend args (filterByManualMarking raw args pcs))) with
      | none =>
        simp only [Option.getD_some]
        rw [thas, tget_leftMinusRight, if_pos hdk]
        rfl
      | some inv =>
        simp only
        rw [thas, tget_join, if_neg (by rw [hsrc]; exact Bool.false_ne_true)]
        rfl

/-- Witness for C10: a run with no service invocation where `b` is deleted
and pruned from the new target. -/
theorem c10_deleted_absent_from_new_target_witness :
    translateCore (fun batch _ => batch) (fun _ => none) (fun _ _ => none)
      { src := [("a", some "x")], srcLng := "en", srcFile := "locales/en.po",
        oldTarget := some [("a", some "1"), ("b", some "2")],
        targetLng := "de", sourceOverride := [] } =
      some { changeSet := { skipped := [], added := [], updated := [],
                            deleted := some [("b", some "2")] },
             serviceInvocation := none,
             newTarget := [("a", some "1")] } ∧
    thas [("a", some "1")] "b" = false :=
  ⟨by decide,
    c10_deleted_absent_from_new_target
      (fun batch _ => batch) (fun _ => none) (fun _ _ => none)
      { src := [("a", some "x")], srcLng := "en", srcFile := "locales/en.po",
        oldTarget := some [("a", some "1"), ("b", some "2")],
        targetLng := "de", sourceOverride := [] }
      { changeSet := { skipped := [], added := [], updated := [],
                       deleted := some [("b", some "2")] },
        serviceInvocation := none,
        newTarget := [("a", some "1")] }
      [("b", some "2")] "b" (some "2")
      (by decide) (by decide) (by decide)⟩

/-! ## Characterizing the accumulated service invocation

The three translate / copy / override steps build one accumulator; the
following definitions name each step's contribution, and the lemmas reduce
lookups in the final invocation to lookups in the contributions. -/

/-- The batch sent in the Translate-Normal step (empty when the step does
not run). -/
def translateBatchOf (f : ManualFilterResult) : TSet :=
  if 1 ≤ f.toTranslate.length then f.toTranslate else []

/-- The results produced by the Translate-Normal step. -/
def translateResultsOf (backend : TSet → CoreArgs → TSet) (args : CoreArgs)
    (f : ManualFilterResult) : TSet :=
  if 1 ≤ f.toTranslate.length then backend f.toTranslate args else []

/-- The inputs contributed by the Translate-Override step: the override
batch on a successful read, the raw bucket on the copy-original fallback. -/
def overrideInputsOf (fs : String → String → Option TSet) (args : CoreArgs)
    (f : ManualFilterResult) : TSet :=
  if 0 < f.toTranslateFromOverride.length then
    match alookup args.sourceOverride args.targetLng with
    | none => []
    | some overrideLng =>
      if overrideLng.isEmpty then []
      else
        match readOverrideSource fs args.srcFile overrideLng with
        | some overrideSource =>
          buildOverrideInputs f.toTranslateFromOverride overrideSource
        | none => f.toTranslateFromOverride
  else []

/-- The results contributed by the Translate-Override step. -/
def overrideResultsOf (backend : TSet → CoreArgs → TSet)
    (fs : String → String → Option TSet) (args : CoreArgs)
    (f : ManualFilterResult) : TSet :=
  if 0 < f.toTranslateFromOverride.length then
    match alookup args.sourceOverride args.targetLng with
    | none => []
    | some overrideLng =>
      if overrideLng.isEmpty then []
      else
        match readOverrideSource fs args.srcFile overrideLng with
        | some overrideSource =>
          let overrideInputs :=
            buildOverrideInputs f.toTranslateFromOverride overrideSource
          if 0 < overrideInputs.length then
            backend overrideInputs
              { args with src := overrideInputs, srcLng := overrideLng }
          else []
        | none => f.toTranslateFromOverride
  else []

/-- The accumulated service invocation of one run. -/
def siOf (backend : TSet → CoreArgs → TSet)
    (fs : String → String → Option TSet) (args : CoreArgs)
    (f : ManualFilterResult) : Option TServiceInvocation :=
  stepOverride backend fs args f
    (stepCopyOriginal f (stepTranslate backend args f))

/-- The inputs of a possibly-absent invocation. -/
def optInputs : Option TServiceInvocation → TSet
  | none => []
  | some inv => inv.inputs

/-- The results of a possibly-absent invocation. -/
def optResults : Option TServiceInvocation → TSet
  | none => []
  | some inv => inv.results

theorem stepTranslate_optInputs (backend : TSet → CoreArgs → TSet)
    (args : CoreArgs) (f : ManualFilterResult) :
    optInputs (stepTranslate backend args f) = translateBatchOf f := by
  unfold stepTranslate translateBatchOf
  by_cases h : 1 ≤ f.toTranslate.length <;> simp [h, optInputs, invokeTranslationService]

theorem stepTranslate_optResults (backend : TSet → CoreArgs → TSet)
    (args : CoreArgs) (f : ManualFilterResult) :
    optResults (stepTranslate backend args f) = translateResultsOf backend args f := by
  unfold stepTranslate translateResultsOf
  by_cases h : 1 ≤ f.toTranslate.length <;> simp [h, optResults, invokeTranslationService]

theorem stepCopyOriginal_optInputs (f : ManualFilterResult)
    (si : Option TServiceInvocation) (hndC : (listKeys f.toCopyOriginal).Nodup)
    (k : String) :
    tget (optInputs (stepCopyOriginal f si)) k =
      ((tget f.toCopyOriginal k).or (tget (optInputs si) k)) := by
  unfold stepCopyOriginal
  by_cases h : 0 < f.toCopyOriginal.length
  · have hbase : (si.getD { inputs := [], results := [] }).inputs = optInputs si := by
      cases si <;> rfl
    simp only [h, if_pos, optInputs]
    rw [hbase, tget_tmerge _ _ _ hndC]
    cases si <;> rfl
  · have hnil : f.toCopyOriginal = [] := by
      cases hc : f.toCopyOriginal with
      | nil => rfl
      | cons x xs => rw [hc] at h; exact absurd (by simp) h
    rw [if_neg h, hnil]
    rfl

theorem stepCopyOriginal_optResults (f : ManualFilterResult)
    (si : Option TServiceInvocation) (hndC : (listKeys f.toCopyOriginal).Nodup)
    (k : String) :
    tget (optResults (stepCopyOriginal f si)) k =
      ((tget f.toCopyOriginal k).or (tget (optResults si) k)) := by
  unfold stepCopyOriginal
  by_cases h : 0 < f.toCopyOriginal.length
  · have hbase : (si.getD { inputs := [], results := [] }).results = optResults si := by
      cases si <;> rfl
    simp only [h, if_pos, optResults]
    rw [hbase, tget_tmerge _ _ _ hndC]
    cases si <;> rfl
  · have hnil : f.toCopyOriginal = [] := by
      cases hc : f.toCopyOriginal with
      | nil => rfl
      | cons x xs => rw [hc] at h; exact absurd (by simp) h
    rw [if_neg h, hnil]
    rfl

theorem thas_eq_of_listKeys_eq {m₁ m₂ : TSet} (h : listKeys m₁ = listKeys m₂)
    (k : String) : thas m₁ k = thas m₂ k := by
  by_cases h1 : thas m₁ k = true
  · rw [h1]
    symm
    rw [thas_eq_mem_listKeys, ← h]
    exact (thas_eq_mem_listKeys m₁ k).mp h1
  · have h1' : thas m₁ k = false := by simpa using h1
    rw [h1']
    symm
    rw [Bool.eq_false_iff]
    intro hc
    exact h1 ((thas_eq_mem_listKeys m₁ k).mpr
      (h ▸ (thas_eq_mem_listKeys m₂ k).mp hc))

theorem listKeys_buildOverrideInputs_sublist (b o : TSet) :
    (listKeys (buildOverrideInputs b o)).Sublist (listKeys b) := by
  induction b with
  | nil => exact List.Sublist.refl _
  | cons kv rest ih =>
    rw [buildOverrideInputs, List.filterMap_cons]
    rw [buildOverrideInputs] at ih
    cases ho : tget o kv.1 with
    | none =>
      simp only [ho]
      exact ih.trans (List.sublist_cons_self _ _)
    | some w =>
      cases w with
      | none =>
        simp only [ho]
        exact ih.trans (List.sublist_cons_self _ _)
      | some s =>
        simp only [ho]
        by_cases hs : s.isEmpty
        · rw [if_pos hs]
          exact ih.trans (List.sublist_cons_self _ _)
        · rw [if_neg hs]
          rw [listKeys_cons, listKeys_cons]
          exact ih.cons₂ kv.1

theorem listKeys_filter_sublist (p : String × Option String → Bool) (m : TSet) :
    (listKeys (m.filter p)).Sublist (listKeys m) :=
  (List.filter_sublist m).map Prod.fst

theorem stepOverride_optInputs (backend : TSet → CoreArgs → TSet)
    (fs : String → String → Option TSet) (args : CoreArgs)
    (f : ManualFilterResult) (si : Option TServiceInvocation)
    (hndO : (listKeys f.toTranslateFromOverride).Nodup) (k : String) :
    tget (optInputs (stepOverride backend fs args f si)) k =
      ((tget (overrideInputsOf fs args f) k).or (tget (optInputs si) k)) := by
  unfold stepOverride overrideInputsOf
  by_cases hb : 0 < f.toTranslateFromOverride.length
  · rw [if_pos hb, if_pos hb]
    cases hl : alookup args.sourceOverride args.targetLng with
    | none => rfl
    | some lng =>
      dsimp only
      by_cases he : lng.isEmpty
      · rw [if_pos he, if_pos he]
        rfl
      · rw [if_neg he, if_neg he]
        cases hr : readOverrideSource fs args.srcFile lng with
        | some osrc =>
          dsimp only
          have hndoi : (listKeys (buildOverrideInputs f.toTranslateFromOverride osrc)).Nodup :=
            (listKeys_buildOverrideInputs_sublist _ _).nodup hndO
          by_cases hoi : 0 < (buildOverrideInputs f.toTranslateFromOverride osrc).length
          · rw [if_pos hoi]
            have hbase : (si.getD { inputs := [], results := [] }).inputs = optInputs si := by
              cases si <;> rfl
            show tget (tmerge (si.getD { inputs := [], results := [] }).inputs
              (buildOverrideInputs f.toTranslateFromOverride osrc)) k = _
            rw [hbase, tget_tmerge _ _ _ hndoi]
          · rw [if_neg hoi]
            have hnil : buildOverrideInputs f.toTranslateFromOverride osrc = [] := by
              cases hc : buildOverrideInputs f.toTranslateFromOverride osrc with
              | nil => rfl
              | cons x xs => rw [hc] at hoi; exact absurd (by simp) hoi
            rw [hnil]
            rfl
        | none =>
          dsimp only
          have hbase : (si.getD { inputs := [], results := [] }).inputs = optInputs si := by
            cases si <;> rfl
          show tget (tmerge _ _) k = _
          rw [hbase, tget_tmerge _ _ _ hndO]
  · rw [if_neg hb, if_neg hb]
    rfl

theorem stepOverride_optResults (backend : TSet → CoreArgs → TSet)
    (fs : String → String → Option TSet) (args : CoreArgs)
    (f : ManualFilterResult) (si : Option TServiceInvocation)
    (Hkeys : ∀ batch a, listKeys (backend batch a) = listKeys batch)
    (hndO : (listKeys f.toTranslateFromOverride).Nodup) (k : String) :
    tget (optResults (stepOverride backend fs args f si)) k =
      ((tget (overrideResultsOf backend fs args f) k).or (tget (optResults si) k)) := by
  unfold stepOverride overrideResultsOf
  by_cases hb : 0 < f.toTranslateFromOverride.length
  · rw [if_pos hb, if_pos hb]
    cases hl : alookup args.sourceOverride args.targetLng with
    | none => rfl
    | some lng =>
      dsimp only
      by_cases he : lng.isEmpty
      · rw [if_pos he, if_pos he]
        rfl
      · rw [if_neg he, if_neg he]
        cases hr : readOverrideSource fs args.srcFile lng with
        | some osrc =>
          dsimp only
          have hndoi : (listKeys (buildOverrideInputs f.toTranslateFromOverride osrc)).Nodup :=
            (listKeys_buildOverrideInputs_sublist _ _).nodup hndO
          by_cases hoi : 0 < (buildOverrideInputs f.toTranslateFromOverride osrc).length
          · rw [if_pos hoi, if_pos hoi]
            dsimp only [optResults]
            have hbase : (si.getD { inputs := [], results := [] }).results = optResults si := by
              cases si <;> rfl
            have hndr : (listKeys ((invokeTranslationService backend
                (buildOverrideInputs f.toTranslateFromOverride osrc)
                { args with src := buildOverrideInputs f.toTranslateFromOverride osrc, srcLng := lng }).results)).Nodup := by
              show (listKeys (backend _ _)).Nodup
              rw [Hkeys]
              exact hndoi
            rw [hbase, tget_tmerge _ _ _ hndr]
            rfl
          · rw [if_neg hoi, if_neg hoi]
            rfl
        | none =>
          dsimp only
          have hbase : (si.getD { inputs := [], results := [] }).results = optResults si := by
            cases si <;> rfl
          show tget (tmerge _ _) k = _
          rw [hbase, tget_tmerge _ _ _ hndO]
  · rw [if_neg hb, if_neg hb]
    rfl

theorem siOf_optInputs (backend : TSet → CoreArgs → TSet)
    (fs : String → String → Option TSet) (args : CoreArgs)
    (f : ManualFilterResult)
    (hndC : (listKeys f.toCopyOriginal).Nodup)
    (hndO : (listKeys f.toTranslateFromOverride).Nodup) (k : String) :
    tget (optInputs (siOf backend fs args f)) k =
      ((tget (overrideInputsOf fs args f) k).or
        ((tget f.toCopyOriginal k).or (tget (translateBatchOf f) k))) := by
  unfold siOf
  rw [stepOverride_optInputs backend fs args f _ hndO,
    stepCopyOriginal_optInputs f _ hndC, stepTranslate_optInputs]

theorem siOf_optResults (backend : TSet → CoreArgs → TSet)
    (fs : String → String → Option TSet) (args : CoreArgs)
    (f : ManualFilterResult)
    (Hkeys : ∀ batch a, listKeys (backend batch a) = listKeys batch)
    (hndC : (listKeys f.toCopyOriginal).Nodup)
    (hndO : (listKeys f.toTranslateFromOverride).Nodup) (k : String) :
    tget (optResults (siOf backend fs args f)) k =
      ((tget (overrideResultsOf backend fs args f) k).or
        ((tget f.toCopyOriginal k).or (tget (translateResultsOf backend args f) k))) := by
  unfold siOf
  rw [stepOverride_optResults backend fs args f _ Hkeys hndO,
    stepCopyOriginal_optResults f _ hndC, stepTranslate_optResults]

theorem stepTranslate_eq_none_iff (backend : TSet → CoreArgs → TSet)
    (args : CoreArgs) (f : ManualFilterResult) :
    stepTranslate backend args f = none ↔ f.toTranslate = [] := by
  unfold stepTranslate
  by_cases h : 1 ≤ f.toTranslate.length
  · simp only [if_pos h]
    constructor
    · intro hc; cases hc
    · intro hc
      rw [hc] at h
      exact absurd h (by simp)
  · simp only [if_neg h]
    constructor
    · intro _
      exact List.eq_nil_of_length_eq_zero (Nat.eq_zero_of_not_pos h)
    · intro _; trivial

theorem stepCopyOriginal_eq_none_iff (f : ManualFilterResult)
    (si : Option TServiceInvocation) :
    stepCopyOriginal f si = none ↔ si = none ∧ f.toCopyOriginal = [] := by
  unfold stepCopyOriginal
  by_cases h : 0 < f.toCopyOriginal.length
  · simp only [if_pos h]
    constructor
    · intro hc; cases hc
    · rintro ⟨-, hc⟩
      rw [hc] at h
      exact absurd h (by simp)
  · simp only [if_neg h]
    have : f.toCopyOriginal = [] := List.eq_nil_of_length_eq_zero (Nat.eq_zero_of_not_pos h)
    simp [this]

theorem stepOverride_eq_none_iff (backend : TSet → CoreArgs → TSet)
    (fs : String → String → Option TSet) (args : CoreArgs)
    (f : ManualFilterResult) (si : Option TServiceInvocation) :
    stepOverride backend fs args f si = none ↔
      si = none ∧ overrideInputsOf fs args f = [] := by
  unfold stepOverride overrideInputsOf
  by_cases hb : 0 < f.toTranslateFromOverride.length
  · rw [if_pos hb, if_pos hb]
    cases hl : alookup args.sourceOverride args.targetLng with
    | none => simp
    | some lng =>
      dsimp only
      by_cases he : lng.isEmpty
      · rw [if_pos he, if_pos he]
        simp
      · rw [if_neg he, if_neg he]
        cases hr : readOverrideSource fs args.srcFile lng with
        | some osrc =>
          dsimp only
          by_cases hoi : 0 < (buildOverrideInputs f.toTranslateFromOverride osrc).length
          · rw [if_pos hoi]
            constructor
            · intro hc; cases hc
            · rintro ⟨-, hc⟩
              rw [hc] at hoi
              exact absurd hoi (by simp)
          · rw [if_neg hoi]
            have : buildOverrideInputs f.toTranslateFromOverride osrc = [] :=
              List.eq_nil_of_length_eq_zero (Nat.eq_zero_of_not_pos hoi)
            simp [this]
        | none =>
          dsimp only
          constructor
          · intro hc; cases hc
          · rintro ⟨-, hc⟩
            rw [hc] at hb
            exact absurd hb (by simp)
  · rw [if_neg hb, if_neg hb]
    simp

theorem siOf_eq_none_iff (backend : TSet → CoreArgs → TSet)
    (fs : String → String → Option TSet) (args : CoreArgs)
    (f : ManualFilterResult) :
    siOf backend fs args f = none ↔
      f.toTranslate = [] ∧ f.toCopyOriginal = [] ∧
        overrideInputsOf fs args f = [] := by
  unfold siOf
  rw [stepOverride_eq_none_iff, stepCopyOriginal_eq_none_iff,
    stepTranslate_eq_none_iff]
  tauto

theorem translateCore_eq_run (backend : TSet → CoreArgs → TSet)
    (pcs : String → Option ParsedComment) (fs : String → String → Option TSet)
    (args : CoreArgs) (raw : TSet)
    (hraw : extractStringsToTranslate args = some raw) :
    translateCore backend pcs fs args =
      some (computeCoreResults args
        (siOf backend fs args (filterByManualMarking raw args pcs))
        (computeChangeSet args
          (siOf backend fs args (filterByManualMarking raw args pcs)))) := by
  rw [translateCore.eq_def, hraw]
  rfl

theorem tget_eq_of_mem_nodup {m : TSet} {k : String} {v : Option String}
    (hnd : (listKeys m).Nodup) (h : (k, v) ∈ m) : tget m k = some v := by
  induction m with
  | nil => cases h
  | cons kv rest ih =>
    rw [listKeys_cons, List.nodup_cons] at hnd
    rcases List.mem_cons.mp h with h | h
    · rw [← h, tget_cons, if_pos rfl]
    · rw [tget_cons]
      by_cases hk : kv.1 = k
      · exfalso
        apply hnd.1
        rw [hk]
        exact List.mem_map.mpr ⟨(k, v), h, rfl⟩
      · rw [if_neg hk]
        exact ih hnd.2 h

theorem buildOverrideInputs_absent {b o : TSet} {k : String}
    (h : tget o k = none ∨ tget o k = some none) :
    thas (buildOverrideInputs b o) k = false := by
  induction b with
  | nil => rfl
  | cons kv rest ih =>
    rw [buildOverrideInputs, List.filterMap_cons]
    rw [buildOverrideInputs] at ih
    cases hokv : tget o kv.1 with
    | none => simpa [hokv] using ih
    | some w =>
      cases w with
      | none => simpa [hokv] using ih
      | some s =>
        by_cases hs : s.isEmpty
        · simpa [hokv, hs] using ih
        · simp only [hokv, if_neg hs]
          rw [thas_cons]
          have hkk : decide (kv.1 = k) = false := by
            simp only [decide_eq_false_iff_not]
            intro hc
            rw [hc] at hokv
            rcases h with h | h <;> rw [h] at hokv <;> cases hokv
          rw [hkk, Bool.false_or]
          exact ih

theorem tget_filter_route (raw : TSet) (pcs : String → Option ParsedComment)
    (t : String) (ov : Bool) (r : Route) (k : String) :
    tget (raw.filter (fun kv => decide (routeOf (pcs kv.1) t ov = r))) k =
      if routeOf (pcs k) t ov = r then tget raw k else none := by
  rw [tget_filter_key raw (fun q => decide (routeOf (pcs q) t ov = r)) k]
  by_cases h : routeOf (pcs k) t ov = r <;> simp [h]

theorem tget_bucket_toTranslate (raw : TSet) (args : CoreArgs)
    (pcs : String → Option ParsedComment) (k : String) :
    tget (filterByManualMarking raw args pcs).toTranslate k =
      if routeOf (pcs k) args.targetLng
          (strTruthy (alookup args.sourceOverride args.targetLng)) =
          Route.toTranslate then tget raw k else none :=
  tget_filter_route raw pcs args.targetLng _ Route.toTranslate k

theorem tget_bucket_toSkip (raw : TSet) (args : CoreArgs)
    (pcs : String → Option ParsedComment) (k : String) :
    tget (filterByManualMarking raw args pcs).toSkip k =
      if routeOf (pcs k) args.targetLng
          (strTruthy (alookup args.sourceOverride args.targetLng)) =
          Route.toSkip then tget raw k else none :=
  tget_filter_route raw pcs args.targetLng _ Route.toSkip k

theorem tget_bucket_toCopyOriginal (raw : TSet) (args : CoreArgs)
    (pcs : String → Option ParsedComment) (k : String) :
    tget (filterByManualMarking raw args pcs).toCopyOriginal k =
      if routeOf (pcs k) args.targetLng
          (strTruthy (alookup args.sourceOverride args.targetLng)) =
          Route.toCopyOriginal then tget raw k else none :=
  tget_filter_route raw pcs args.targetLng _ Route.toCopyOriginal k

theorem tget_bucket_toTranslateFromOverride (raw : TSet) (args : CoreArgs)
    (pcs : String → Option ParsedComment) (k : String) :
    tget (filterByManualMarking raw args pcs).toTranslateFromOverride k =
      if routeOf (pcs k) args.targetLng
          (strTruthy (alookup args.sourceOverride args.targetLng)) =
          Route.toTranslateFromOverride then tget raw k else none :=
  tget_filter_route raw pcs args.targetLng _ Route.toTranslateFromOverride k

theorem route_of_mem_override {raw : TSet} {args : CoreArgs}
    {pcs : String → Option ParsedComment} {kv : String × Option String}
    (h : kv ∈ (filterByManualMarking raw args pcs).toTranslateFromOverride) :
    routeOf (pcs kv.1) args.targetLng
        (strTruthy (alookup args.sourceOverride args.targetLng)) =
      Route.toTranslateFromOverride := by
  have := (List.mem_filter.mp h).2
  simpa using this

theorem nodup_bucket_toCopyOriginal {raw : TSet} (args : CoreArgs)
    (pcs : String → Option ParsedComment) (h : (listKeys raw).Nodup) :
    (listKeys (filterByManualMarking raw args pcs).toCopyOriginal).Nodup :=
  (listKeys_filter_sublist _ raw).nodup h

theorem nodup_bucket_toTranslateFromOverride {raw : TSet} (args : CoreArgs)
    (pcs : String → Option ParsedComment) (h : (listKeys raw).Nodup) :
    (listKeys (filterByManualMarking raw args pcs).toTranslateFromOverride).Nodup :=
  (listKeys_filter_sublist _ raw).nodup h

/-- C6: override-source degradation — if the override read fails, the run
still completes and every override-routed entry's original source value is
copied verbatim into the invocation's inputs and results; if the override
file parses but lacks a (non-null) value for an override-routed key, the
run still completes and that key is silently excluded from the invocation's
inputs and results. -/
theorem c6_override_read_degradation (backend : TSet → CoreArgs → TSet)
    (pcs : String → Option ParsedComment) (fs : String → String → Option TSet)
    (args : CoreArgs) (raw : TSet) (lng : String)
    (Hkeys : ∀ batch a, listKeys (backend batch a) = listKeys batch)
    (hraw : extractStringsToTranslate args = some raw)
    (hndraw : (listKeys raw).Nodup)
    (hlng : alookup args.sourceOverride args.targetLng = some lng)
    (hlngne : lng.isEmpty = false) :
    (fs "po" (inferOverrideSourcePath args.srcFile lng) = none →
      ∃ res, translateCore backend pcs fs args = some res ∧
        ∀ kv : String × Option String,
          kv ∈ (filterByManualMarking raw args pcs).toTranslateFromOverride →
          ∃ inv, res.serviceInvocation = some inv ∧
            tget inv.inputs kv.1 = some kv.2 ∧
            tget inv.results kv.1 = some kv.2) ∧
    (∀ osrc : TSet, fs "po" (inferOverrideSourcePath args.srcFile lng) = some osrc →
      ∀ kv : String × Option String,
        kv ∈ (filterByManualMarking raw args pcs).toTranslateFromOverride →
        (tget osrc kv.1 = none ∨ tget osrc kv.1 = some none) →
        ∃ res, translateCore backend pcs fs args = some res ∧
          ∀ inv, res.serviceInvocation = some inv →
            thas inv.inputs kv.1 = false ∧ thas inv.results kv.1 = false) := by
  have hndC := nodup_bucket_toCopyOriginal args pcs hndraw
  have hndO := nodup_bucket_toTranslateFromOverride args pcs hndraw
  have hrun := translateCore_eq_run backend pcs fs args raw hraw
  have hnemp : ¬ lng.isEmpty = true := by
    rw [hlngne]
    exact Bool.false_ne_true
  constructor
  · intro hfail
    refine ⟨_, hrun, ?_⟩
    intro kv hkv
    have hbne : (filterByManualMarking raw args pcs).toTranslateFromOverride ≠ [] :=
      List.ne_nil_of_mem hkv
    have hro : readOverrideSource fs args.srcFile lng = none := hfail
    have hovIn : overrideInputsOf fs args (filterByManualMarking raw args pcs) =
        (filterByManualMarking raw args pcs).toTranslateFromOverride := by
      unfold overrideInputsOf
      rw [if_pos (List.length_pos.mpr hbne), hlng]
      dsimp only
      rw [if_neg hnemp, hro]
    have hovRes : overrideResultsOf backend fs args (filterByManualMarking raw args pcs) =
        (filterByManualMarking raw args pcs).toTranslateFromOverride := by
      unfold overrideResultsOf
      rw [if_pos (List.length_pos.mpr hbne), hlng]
      dsimp only
      rw [if_neg hnemp, hro]
    obtain ⟨inv, hinv⟩ :
        ∃ inv, siOf backend fs args (filterByManualMarking raw args pcs) = some inv := by
      cases hsi : siOf backend fs args (filterByManualMarking raw args pcs) with
      | none =>
        rw [siOf_eq_none_iff] at hsi
        rw [hovIn] at hsi
        exact absurd hsi.2.2 hbne
      | some inv => exact ⟨inv, rfl⟩
    refine ⟨inv, hinv, ?_, ?_⟩
    · have h1 : tget (optInputs (siOf backend fs args
          (filterByManualMarking raw args pcs))) kv.1 = some kv.2 := by
        rw [siOf_optInputs backend fs args _ hndC hndO, hovIn,
          tget_eq_of_mem_nodup hndO hkv]
        rfl
      rw [hinv] at h1
      exact h1
    · have h1 : tget (optResults (siOf backend fs args
          (filterByManualMarking raw args pcs))) kv.1 = some kv.2 := by
        rw [siOf_optResults backend fs args _ Hkeys hndC hndO, hovRes,
          tget_eq_of_mem_nodup hndO hkv]
        rfl
      rw [hinv] at h1
      exact h1
  · intro osrc hsucc kv hkv hmiss
    refine ⟨_, hrun, ?_⟩
    intro inv hinv
    have hinv2 : siOf backend fs args (filterByManualMarking raw args pcs) = some inv := hinv
    have hbne : (filterByManualMarking raw args pcs).toTranslateFromOverride ≠ [] :=
      List.ne_nil_of_mem hkv
    have hro : readOverrideSource fs args.srcFile lng = some osrc := hsucc
    have hroute := route_of_mem_override hkv
    have hovIn : overrideInputsOf fs args (filterByManualMarking raw args pcs) =
        buildOverrideInputs
          (filterByManualMarking raw args pcs).toTranslateFromOverride osrc := by
      unfold overrideInputsOf
      rw [if_pos (List.length_pos.mpr hbne), hlng]
      dsimp only
      rw [if_neg hnemp, hro]
    have hb : thas (buildOverrideInputs
        (filterByManualMarking raw args pcs).toTranslateFromOverride osrc) kv.1 = false :=
      buildOverrideInputs_absent hmiss
    have hcopy : tget (filterByManualMarking raw args pcs).toCopyOriginal kv.1 = none := by
      rw [tget_bucket_toCopyOriginal,
        if_neg (by rw [hroute]; intro hc; cases hc)]
    have htrT : tget (filterByManualMarking raw args pcs).toTranslate kv.1 = none := by
      rw [tget_bucket_toTranslate,
        if_neg (by rw [hroute]; intro hc; cases hc)]
    have htr : tget (translateBatchOf (filterByManualMarking raw args pcs)) kv.1 = none := by
      unfold translateBatchOf
      by_cases h : 1 ≤ (filterByManualMarking raw args pcs).toTranslate.length
      · rw [if_pos h]
        exact htrT
      · rw [if_neg h]
        rfl
    have htrR : tget (translateResultsOf backend args
        (filterByManualMarking raw args pcs)) kv.1 = none := by
      unfold translateResultsOf
      by_cases h : 1 ≤ (filterByManualMarking raw args pcs).toTranslate.length
      · rw [if_pos h]
        apply tget_eq_none_of_thas_false
        rw [thas_eq_of_listKeys_eq (Hkeys _ _) kv.1, thas, htrT]
        rfl
      · rw [if_neg h]
        rfl
    have hovRes : tget (overrideResultsOf backend fs args
        (filterByManualMarking raw args pcs)) kv.1 = none := by
      unfold overrideResultsOf
      rw [if_pos (List.length_pos.mpr hbne), hlng]
      dsimp only
      rw [if_neg hnemp, hro]
      dsimp only
      by_cases hoi : 0 < (buildOverrideInputs
          (filterByManualMarking raw args pcs).toTranslateFromOverride osrc).length
      · rw [if_pos hoi]
        apply tget_eq_none_of_thas_false
        rw [thas_eq_of_listKeys_eq (Hkeys _ _) kv.1]
        exact hb
      · rw [if_neg hoi]
        rfl
    constructor
    · have h1 : tget (optInputs (siOf backend fs args
          (filterByManualMarking raw args pcs))) kv.1 = none := by
        rw [siOf_optInputs backend fs args _ hndC hndO, hovIn,
          tget_eq_none_of_thas_false hb, hcopy, htr]
        rfl
      rw [hinv2] at h1
      have h2 : tget inv.inputs kv.1 = none := h1
      rw [thas, h2]
      rfl
    · have h1 : tget (optResults (siOf backend fs args
          (filterByManualMarking raw args pcs))) kv.1 = none := by
        rw [siOf_optResults backend fs args _ Hkeys hndC hndO, hovRes, hcopy, htrR]
        rfl
      rw [hinv2] at h1
      have h2 : tget inv.results kv.1 = none := h1
      rw [thas, h2]
      rfl

theorem or_isSome {α : Type} (a b : Option α) :
    (a.or b).isSome = (a.isSome || b.isSome) := by
  cases a <;> rfl

theorem thas_filter_key (m : TSet) (p : String → Bool) (k : String) :
    thas (m.filter (fun kv => p kv.1)) k = (p k && thas m k) := by
  rw [thas, tget_filter_key]
  by_cases h : p k <;> simp [h, thas]

theorem thas_buildOverrideInputs_present {b o : TSet} {k : String} {s : String}
    (hkv : thas b k = true) (hs : tget o k = some (some s))
    (hse : s.isEmpty = false) :
    thas (buildOverrideInputs b o) k = true := by
  induction b with
  | nil => simp at hkv
  | cons kv rest ih =>
    rw [buildOverrideInputs, List.filterMap_cons]
    rw [buildOverrideInputs] at ih
    rw [thas_cons] at hkv
    by_cases hk : kv.1 = k
    · rw [hk, hs]
      dsimp only
      rw [if_neg (by rw [hse]; exact Bool.false_ne_true)]
      dsimp only
      rw [thas_cons]
      simp
    · have hrest : thas rest k = true := by
        rcases Bool.or_eq_true_iff.mp hkv with h | h
        · exact absurd (of_decide_eq_true h) hk
        · exact h
      cases hokv : tget o kv.1 with
      | none => simpa [hokv] using ih hrest
      | some w =>
        cases w with
        | none => simpa [hokv] using ih hrest
        | some s2 =>
          by_cases hs2 : s2.isEmpty
          · simpa [hokv, hs2] using ih hrest
          · simp only [hokv, if_neg hs2]
            rw [thas_cons, ih hrest, Bool.or_true]

theorem thas_buildOverrideInputs_sub {b o : TSet} {k : String}
    (h : thas (buildOverrideInputs b o) k = true) : thas b k = true := by
  rw [thas_eq_mem_listKeys] at h ⊢
  exact (listKeys_buildOverrideInputs_sublist b o).subset h

theorem extract_is_key_filter (args : CoreArgs) (raw : TSet)
    (hraw : extractStringsToTranslate args = some raw) :
    ∃ p : String → Bool, raw = args.src.filter (fun kv => p kv.1) := by
  unfold extractStringsToTranslate at hraw
  by_cases hlen : args.src.length = 0
  · rw [if_pos hlen] at hraw
    cases hraw
  · rw [if_neg hlen] at hraw
    cases ho : args.oldTarget with
    | none =>
      rw [ho] at hraw
      refine ⟨fun _ => true, ?_⟩
      cases hraw
      simp
    | some t =>
      rw [ho] at hraw
      refine ⟨fun q => !(thas t q) || decide (tget t q = some none), ?_⟩
      cases hraw
      show selectLeftDistinct args.src t .compareKeysAndNullValues = _
      unfold selectLeftDistinct
      congr 1

/-- Counterexample for C2: with source key order `[a, b]`, a previous target
ordered `[b, a]` with fresh non-null values for both keys, and hence no
service invocation at all, the run returns the pruned previous target in the
previous target's own order `[b, a]`, not the source's order `[a, b]`. -/
theorem c2_counterexample_order_not_source :
    (translateCore (fun batch _ => batch) (fun _ => none) (fun _ _ => none)
      { src := [("a", some "x"), ("b", some "y")], srcLng := "en",
        srcFile := "locales/en.po",
        oldTarget := some [("b", some "B"), ("a", some "A")],
        targetLng := "de", sourceOverride := [] }).map
        (fun r => listKeys r.newTarget) =
      some ["b", "a"] ∧
    (["b", "a"] : List String) ≠ ["a", "b"] :=
  ⟨by decide, by decide⟩

theorem thas_translateResultsOf (backend : TSet → CoreArgs → TSet)
    (args : CoreArgs) (f : ManualFilterResult)
    (Hkeys : ∀ batch a, listKeys (backend batch a) = listKeys batch) (k : String) :
    thas (translateResultsOf backend args f) k = thas f.toTranslate k := by
  unfold translateResultsOf
  by_cases h : 1 ≤ f.toTranslate.length
  · rw [if_pos h]
    exact thas_eq_of_listKeys_eq (Hkeys _ _) k
  · rw [if_neg h]
    have hnil : f.toTranslate = [] :=
      List.eq_nil_of_length_eq_zero (Nat.eq_zero_of_not_pos h)
    rw [hnil]

theorem thas_translateBatchOf (f : ManualFilterResult) (k : String) :
    thas (translateBatchOf f) k = thas f.toTranslate k := by
  unfold translateBatchOf
  by_cases h : 1 ≤ f.toTranslate.length
  · rw [if_pos h]
  · rw [if_neg h]
    have hnil : f.toTranslate = [] :=
      List.eq_nil_of_length_eq_zero (Nat.eq_zero_of_not_pos h)
    rw [hnil]

theorem thas_overrideResultsOf (backend : TSet → CoreArgs → TSet)
    (fs : String → String → Option TSet) (args : CoreArgs)
    (f : ManualFilterResult)
    (Hkeys : ∀ batch a, listKeys (backend batch a) = listKeys batch) (k : String) :
    thas (overrideResultsOf backend fs args f) k =
      thas (overrideInputsOf fs args f) k := by
  unfold overrideResultsOf overrideInputsOf
  by_cases hb : 0 < f.toTranslateFromOverride.length
  · rw [if_pos hb, if_pos hb]
    cases hl : alookup args.sourceOverride args.targetLng with
    | none => rfl
    | some lng =>
      dsimp only
      by_cases he : lng.isEmpty
      · rw [if_pos he, if_pos he]
      · rw [if_neg he, if_neg he]
        cases hr : readOverrideSource fs args.srcFile lng with
        | some osrc =>
          dsimp only
          by_cases hoi : 0 < (buildOverrideInputs f.toTranslateFromOverride osrc).length
          · rw [if_pos hoi]
            exact thas_eq_of_listKeys_eq (Hkeys _ _) k
          · rw [if_neg hoi]
            have hnil : buildOverrideInputs f.toTranslateFromOverride osrc = [] :=
              List.eq_nil_of_length_eq_zero (Nat.eq_zero_of_not_pos hoi)
            rw [hnil]
        | none => rfl
  · rw [if_neg hb, if_neg hb]

theorem thas_siOf_results_eq (backend : TSet → CoreArgs → TSet)
    (fs : String → String → Option TSet) (args : CoreArgs)
    (f : ManualFilterResult)
    (Hkeys : ∀ batch a, listKeys (backend batch a) = listKeys batch)
    (hndC : (listKeys f.toCopyOriginal).Nodup)
    (hndO : (listKeys f.toTranslateFromOverride).Nodup)
    {inv : TServiceInvocation} (hinv : siOf backend fs args f = some inv)
    (k : String) :
    thas inv.results k =
      ((thas (overrideInputsOf fs args f) k || thas f.toCopyOriginal k) ||
        thas f.toTranslate k) := by
  have h := siOf_optResults backend fs args f Hkeys hndC hndO k
  rw [hinv] at h
  have h2 : tget inv.results k =
      ((tget (overrideResultsOf backend fs args f) k).or
        ((tget f.toCopyOriginal k).or
          (tget (translateResultsOf backend args f) k))) := h
  rw [thas, h2, or_isSome, or_isSome]
  rw [show (tget (overrideResultsOf backend fs args f) k).isSome =
      thas (overrideResultsOf backend fs args f) k from rfl,
    show (tget (translateResultsOf backend args f) k).isSome =
      thas (translateResultsOf backend args f) k from rfl,
    thas_overrideResultsOf backend fs args f Hkeys k,
    thas_translateResultsOf backend args f Hkeys k]
  rw [Bool.or_assoc]
  rfl

theorem thas_siOf_inputs_eq (backend : TSet → CoreArgs → TSet)
    (fs : String → String → Option TSet) (args : CoreArgs)
    (f : ManualFilterResult)
    (hndC : (listKeys f.toCopyOriginal).Nodup)
    (hndO : (listKeys f.toTranslateFromOverride).Nodup)
    {inv : TServiceInvocation} (hinv : siOf backend fs args f = some inv)
    (k : String) :
    thas inv.inputs k =
      ((thas (overrideInputsOf fs args f) k || thas f.toCopyOriginal k) ||
        thas f.toTranslate k) := by
  have h := siOf_optInputs backend fs args f hndC hndO k
  rw [hinv] at h
  have h2 : tget inv.inputs k =
      ((tget (overrideInputsOf fs args f) k).or
        ((tget f.toCopyOriginal k).or (tget (translateBatchOf f) k))) := h
  rw [thas, h2, or_isSome, or_isSome]
  rw [show (tget (translateBatchOf f) k).isSome = thas (translateBatchOf f) k from rfl,
    thas_translateBatchOf f k]
  rw [Bool.or_assoc]
  rfl

theorem thas_filter_le {m : TSet} {q : String × Option String → Bool} {k : String}
    (h : thas (m.filter q) k = true) : thas m k = true := by
  obtain ⟨v, hv⟩ := mem_of_thas h
  exact thas_of_mem (List.mem_filter.mp hv).1

theorem thas_route_filter {raw : TSet} {pcs : String → Option ParsedComment}
    {t : String} {ov : Bool} {r : Route} {k : String}
    (h : thas (raw.filter (fun kv => decide (routeOf (pcs kv.1) t ov = r))) k = true) :
    routeOf (pcs k) t ov = r ∧ thas raw k = true := by
  rw [thas_filter_key raw (fun q => decide (routeOf (pcs q) t ov = r)) k] at h
  rcases Bool.and_eq_true_iff.mp h with ⟨h1, h2⟩
  exact ⟨of_decide_eq_true h1, h2⟩

theorem thas_route_filter_of {raw : TSet} {pcs : String → Option ParsedComment}
    {t : String} {ov : Bool} {r : Route} {k : String}
    (h1 : routeOf (pcs k) t ov = r) (h2 : thas raw k = true) :
    thas (raw.filter (fun kv => decide (routeOf (pcs kv.1) t ov = r))) k = true := by
  rw [thas_filter_key raw (fun q => decide (routeOf (pcs q) t ov = r)) k, h1, h2]
  simp

theorem thas_overrideInputsOf_sub {fs : String → String → Option TSet}
    {args : CoreArgs} {f : ManualFilterResult} {k : String}
    (h : thas (overrideInputsOf fs args f) k = true) :
    thas f.toTranslateFromOverride k = true := by
  unfold overrideInputsOf at h
  by_cases hb : 0 < f.toTranslateFromOverride.length
  · rw [if_pos hb] at h
    cases hl : alookup args.sourceOverride args.targetLng with
    | none => rw [hl] at h; cases h
    | some lng =>
      rw [hl] at h
      dsimp only at h
      by_cases he : lng.isEmpty
      · rw [if_pos he] at h; cases h
      · rw [if_neg he] at h
        cases hr : readOverrideSource fs args.srcFile lng with
        | some osrc =>
          rw [hr] at h
          exact thas_buildOverrideInputs_sub h
        | none =>
          rw [hr] at h
          exact h
  · rw [if_neg hb] at h
    cases h

theorem tget_pruned (t src : TSet) (k : String) (h : thas src k = true) :
    tget (leftMinusRight t (leftMinusRight t src)) k = tget t k := by
  have hdel : thas (leftMinusRight t src) k = false := by
    rw [thas, tget_leftMinusRight, if_pos h]
    rfl
  rw [tget_leftMinusRight, hdel]
  simp

theorem computeNewTarget_none_target (args : CoreArgs)
    (si : Option TServiceInvocation) (h0 : args.oldTarget = none) :
    computeNewTarget args (computeChangeSet args si) si = optResults si := by
  rw [computeNewTarget.eq_def, computeChangeSet_deleted, extractStaleTranslations, h0]
  cases si <;> rfl

theorem computeNewTarget_some_target (args : CoreArgs)
    (si : Option TServiceInvocation) (t : TSet) (h0 : args.oldTarget = some t) :
    computeNewTarget args (computeChangeSet args si) si =
      (match si with
      | none => leftMinusRight t (leftMinusRight t args.src)
      | some inv => joinResultsPreserveOrder inv.results (computeChangeSet args si)
          (leftMinusRight t (leftMinusRight t args.src)) args.src) := by
  rw [computeNewTarget.eq_def, computeChangeSet_deleted, extractStaleTranslations, h0]
  cases si <;> rfl

theorem candidate_covered (backend : TSet → CoreArgs → TSet)
    (fs : String → String → Option TSet) (args : CoreArgs)
    (pcs : String → Option ParsedComment) (raw : TSet)
    (Hkeys : ∀ batch a, listKeys (backend batch a) = listKeys batch)
    (hndC : (listKeys (filterByManualMarking raw args pcs).toCopyOriginal).Nodup)
    (hndO : (listKeys (filterByManualMarking raw args pcs).toTranslateFromOverride).Nodup)
    (k : String)
    (Hov : routeOf (pcs k) args.targetLng
        (strTruthy (alookup args.sourceOverride args.targetLng)) =
        Route.toTranslateFromOverride →
      ∀ lng osrc, alookup args.sourceOverride args.targetLng = some lng →
      readOverrideSource fs args.srcFile lng = some osrc →
      ∃ s, tget osrc k = some (some s) ∧ s.isEmpty = false)
    (hcand : thas raw k = true)
    (hroute : routeOf (pcs k) args.targetLng
      (strTruthy (alookup args.sourceOverride args.targetLng)) ≠ Route.toSkip) :
    ∃ inv, siOf backend fs args (filterByManualMarking raw args pcs) = some inv ∧
      thas inv.results k = true := by
  cases hrv : routeOf (pcs k) args.targetLng
      (strTruthy (alookup args.sourceOverride args.targetLng)) with
  | toSkip => exact absurd hrv hroute
  | toTranslate =>
    have hbT : thas (filterByManualMarking raw args pcs).toTranslate k = true :=
      thas_route_filter_of hrv hcand
    obtain ⟨v, hv⟩ := mem_of_thas hbT
    obtain ⟨inv, hinv⟩ :
        ∃ inv, siOf backend fs args (filterByManualMarking raw args pcs) = some inv := by
      cases hsi : siOf backend fs args (filterByManualMarking raw args pcs) with
      | none =>
        rw [siOf_eq_none_iff] at hsi
        rw [hsi.1] at hv
        cases hv
      | some inv => exact ⟨inv, rfl⟩
    refine ⟨inv, hinv, ?_⟩
    rw [thas_siOf_results_eq backend fs args _ Hkeys hndC hndO hinv k, hbT]
    simp
  | toCopyOriginal =>
    have hbC : thas (filterByManualMarking raw args pcs).toCopyOriginal k = true :=
      thas_route_filter_of hrv hcand
    obtain ⟨v, hv⟩ := mem_of_thas hbC
    obtain ⟨inv, hinv⟩ :
        ∃ inv, siOf backend fs args (filterByManualMarking raw args pcs) = some inv := by
      cases hsi : siOf backend fs args (filterByManualMarking raw args pcs) with
      | none =>
        rw [siOf_eq_none_iff] at hsi
        rw [hsi.2.1] at hv
        cases hv
      | some inv => exact ⟨inv, rfl⟩
    refine ⟨inv, hinv, ?_⟩
    rw [thas_siOf_results_eq backend fs args _ Hkeys hndC hndO hinv k, hbC]
    simp
  | toTranslateFromOverride =>
    have hbO : thas (filterByManualMarking raw args pcs).toTranslateFromOverride k = true :=
      thas_route_filter_of hrv hcand
    obtain ⟨v, hv⟩ := mem_of_thas hbO
    have hov : strTruthy (alookup args.sourceOverride args.targetLng) = true :=
      ((routeOf_eq_toTranslateFromOverride (pcs k) args.targetLng
        (strTruthy (alookup args.sourceOverride args.targetLng))).mp hrv).2
    obtain ⟨lng, hlng, hlngne⟩ :
        ∃ lng, alookup args.sourceOverride args.targetLng = some lng ∧
          lng.isEmpty = false := by
      cases hl : alookup args.sourceOverride args.targetLng with
      | none => rw [hl] at hov; cases hov
      | some lng =>
        rw [hl] at hov
        refine ⟨lng, rfl, ?_⟩
        cases hle : lng.isEmpty
        · rfl
        · rw [strTruthy, hle] at hov; cases hov
    have hblen : 0 < (filterByManualMarking raw args pcs).toTranslateFromOverride.length :=
      List.length_pos.mpr (List.ne_nil_of_mem hv)
    have hnemp : ¬ lng.isEmpty = true := by
      rw [hlngne]
      exact Bool.false_ne_true
    have hOvIn : thas (overrideInputsOf fs args
        (filterByManualMarking raw args pcs)) k = true := by
      unfold overrideInputsOf
      rw [if_pos hblen, hlng]
      dsimp only
      rw [if_neg hnemp]
      cases hr : readOverrideSource fs args.srcFile lng with
      | some osrc =>
        obtain ⟨s, hs1, hs2⟩ := Hov hrv lng osrc hlng hr
        exact thas_buildOverrideInputs_present hbO hs1 hs2
      | none => exact hbO
    obtain ⟨inv, hinv⟩ :
        ∃ inv, siOf backend fs args (filterByManualMarking raw args pcs) = some inv := by
      cases hsi : siOf backend fs args (filterByManualMarking raw args pcs) with
      | none =>
        rw [siOf_eq_none_iff] at hsi
        rw [hsi.2.2] at hOvIn
        cases hOvIn
      | some inv => exact ⟨inv, rfl⟩
    refine ⟨inv, hinv, ?_⟩
    rw [thas_siOf_results_eq backend fs args _ Hkeys hndC hndO hinv k, hOvIn]
    simp

theorem newTarget_run_some_inv (args : CoreArgs) (si : Option TServiceInvocation)
    (inv : TServiceInvocation) (t : TSet) (hsi : si = some inv)
    (ho : args.oldTarget = some t) :
    (computeCoreResults args si (computeChangeSet args si)).newTarget =
      joinResultsPreserveOrder inv.results (computeChangeSet args si)
        (leftMinusRight t (leftMinusRight t args.src)) args.src := by
  subst hsi
  exact computeNewTarget_some_target args (some inv) t ho

theorem newTarget_run_no_inv (args : CoreArgs) (si : Option TServiceInvocation)
    (t : TSet) (hsi : si = none) (ho : args.oldTarget = some t) :
    (computeCoreResults args si (computeChangeSet args si)).newTarget =
      leftMinusRight t (leftMinusRight t args.src) := by
  subst hsi
  exact computeNewTarget_some_target args none t ho

theorem newTarget_run_no_target (args : CoreArgs) (si : Option TServiceInvocation)
    (ho : args.oldTarget = none) :
    (computeCoreResults args si (computeChangeSet args si)).newTarget =
      optResults si :=
  computeNewTarget_none_target args si ho

/-- C2 (amended): provided every service invocation returns results for
exactly its input keys, and the override source (when it is read
successfully) carries a truthy value for every override-routed key: the new
target contains every current-source key not routed to skip; a key the
invocation did not touch keeps the previous target's value; a key in
`added` or `updated` carries the fresh service result; and when a previous
target exists and a service invocation occurred, the new target's iteration
order equals the current source's key order. (Without a service invocation
the new target keeps the pruned previous target's own order, and without
the service hypotheses a backend that omits keys can leave source keys
uncovered — see the counterexample.) -/
theorem c2_new_target_invariant (backend : TSet → CoreArgs → TSet)
    (pcs : String → Option ParsedComment) (fs : String → String → Option TSet)
    (args : CoreArgs) (raw : TSet) (res : CoreResults)
    (Hkeys : ∀ batch a, listKeys (backend batch a) = listKeys batch)
    (hraw : extractStringsToTranslate args = some raw)
    (hndsrc : (listKeys args.src).Nodup)
    (Hov : ∀ lng osrc, alookup args.sourceOverride args.targetLng = some lng →
      readOverrideSource fs args.srcFile lng = some osrc →
      ∀ kv : String × Option String,
        kv ∈ (filterByManualMarking raw args pcs).toTranslateFromOverride →
        ∃ s, tget osrc kv.1 = some (some s) ∧ s.isEmpty = false)
    (hrun : translateCore backend pcs fs args = some res) :
    (∀ k, thas args.src k = true →
      routeOf (pcs k) args.targetLng
        (strTruthy (alookup args.sourceOverride args.targetLng)) ≠ Route.toSkip →
      thas res.newTarget k = true) ∧
    (∀ k t, args.oldTarget = some t → thas args.src k = true →
      (∀ inv, res.serviceInvocation = some inv → thas inv.results k = false) →
      tget res.newTarget k = tget t k) ∧
    (∀ k inv, res.serviceInvocation = some inv →
      (thas res.changeSet.added k = true ∨ thas res.changeSet.updated k = true) →
      tget res.newTarget k = tget inv.results k) ∧
    (∀ t inv, args.oldTarget = some t → res.serviceInvocation = some inv →
      listKeys res.newTarget =
        (listKeys args.src).filter (fun k => thas res.newTarget k)) := by
  have hres : res = computeCoreResults args
      (siOf backend fs args (filterByManualMarking raw args pcs))
      (computeChangeSet args (siOf backend fs args (filterByManualMarking raw args pcs))) :=
    Option.some.inj (hrun.symm.trans (translateCore_eq_run backend pcs fs args raw hraw))
  subst hres
  obtain ⟨p, hp⟩ := extract_is_key_filter args raw hraw
  have hndraw : (listKeys raw).Nodup := by
    rw [hp]
    exact (listKeys_filter_sublist _ _).nodup hndsrc
  have hndC := nodup_bucket_toCopyOriginal args pcs hndraw
  have hndO := nodup_bucket_toTranslateFromOverride args pcs hndraw
  refine ⟨?_, ?_, ?_, ?_⟩
  · -- coverage
    intro k hk hroute
    by_cases hcand : thas raw k = true
    · have Hovk : routeOf (pcs k) args.targetLng
          (strTruthy (alookup args.sourceOverride args.targetLng)) =
          Route.toTranslateFromOverride →
          ∀ lng osrc, alookup args.sourceOverride args.targetLng = some lng →
          readOverrideSource fs args.srcFile lng = some osrc →
          ∃ s, tget osrc k = some (some s) ∧ s.isEmpty = false := by
        intro hrv lng osrc hlng hr
        obtain ⟨v, hv⟩ := mem_of_thas (thas_route_filter_of hrv hcand)
        exact Hov lng osrc hlng hr (k, v) hv
      obtain ⟨inv, hinv, hresk⟩ := candidate_covered backend fs args pcs raw
        Hkeys hndC hndO k Hovk hcand hroute
      cases ho : args.oldTarget with
      | none =>
        rw [newTarget_run_no_target args _ ho, hinv]
        exact hresk
      | some t =>
        rw [newTarget_run_some_inv args _ inv t hinv ho, thas, tget_join,
          if_pos hk, or_isSome]
        have h2 : (tget inv.results k).isSome = true := hresk
        rw [h2]
        rfl
    · -- non-candidate: the key sits in the previous target with a non-null value
      have hfalse : thas raw k = false := by simpa using hcand
      have hsne : args.src.length ≠ 0 := by
        intro hc
        rw [List.eq_nil_of_length_eq_zero hc] at hk
        cases hk
      cases ho : args.oldTarget with
      | none =>
        have hrweq : raw = args.src := by
          unfold extractStringsToTranslate at hraw
          rw [if_neg hsne, ho] at hraw
          exact (Option.some.inj hraw).symm
        rw [hrweq, hk] at hfalse
        cases hfalse
      | some t =>
        have hrweq : raw = selectLeftDistinct args.src t .compareKeysAndNullValues := by
          unfold extractStringsToTranslate at hraw
          rw [if_neg hsne, ho] at hraw
          exact (Option.some.inj hraw).symm
        rw [hrweq] at hfalse
        have hfil : thas (args.src.filter
            (fun kv => (!(thas t kv.1) || decide (tget t kv.1 = some none)))) k = false :=
          hfalse
        rw [thas_filter_key args.src
          (fun q => (!(thas t q) || decide (tget t q = some none))) k, hk,
          Bool.and_true] at hfil
        have hthast : thas t k = true := by
          rcases Bool.or_eq_false_iff.mp hfil with ⟨h1, -⟩
          simpa using h1
        cases hsi : siOf backend fs args (filterByManualMarking raw args pcs) with
        | none =>
          rw [newTarget_run_no_inv args none t rfl ho, thas,
            tget_pruned t args.src k hk]
          exact hthast
        | some inv =>
          rw [newTarget_run_some_inv args (some inv) inv t rfl ho, thas, tget_join,
            if_pos hk, or_isSome, tget_pruned t args.src k hk]
          have h2 : (tget t k).isSome = true := hthast
          rw [h2, Bool.or_true]
  · -- untouched keys keep the previous value
    intro k t ho hk hnores
    cases hsi : siOf backend fs args (filterByManualMarking raw args pcs) with
    | none =>
      rw [newTarget_run_no_inv args none t rfl ho, tget_pruned t args.src k hk]
    | some inv =>
      have hr := hnores inv hsi
      have hrnone : tget inv.results k = none := tget_eq_none_of_thas_false hr
      rw [newTarget_run_some_inv args (some inv) inv t rfl ho, tget_join, if_pos hk,
        hrnone, tget_pruned t args.src k hk]
      rfl
  · -- added/updated carry the fresh result
    intro k inv hsi hadu
    have hsi2 : siOf backend fs args (filterByManualMarking raw args pcs) = some inv := hsi
    have hresk : thas inv.results k = true := by
      rcases hadu with h | h
      · have hadd : (computeCoreResults args
            (siOf backend fs args (filterByManualMarking raw args pcs))
            (computeChangeSet args (siOf backend fs args
              (filterByManualMarking raw args pcs)))).changeSet.added =
            (computeChangeSet args (some inv)).added := by rw [hsi2]; rfl
        rw [hadd] at h
        cases ho : args.oldTarget with
        | none => rw [computeChangeSet, ho] at h; exact h
        | some t =>
          rw [computeChangeSet, ho] at h
          exact thas_filter_le h
      · have hupd : (computeCoreResults args
            (siOf backend fs args (filterByManualMarking raw args pcs))
            (computeChangeSet args (siOf backend fs args
              (filterByManualMarking raw args pcs)))).changeSet.updated =
            (computeChangeSet args (some inv)).updated := by rw [hsi2]; rfl
        rw [hupd] at h
        cases ho : args.oldTarget with
        | none =>
          rw [computeChangeSet, ho] at h
          cases h
        | some t =>
          rw [computeChangeSet, ho] at h
          exact thas_filter_le h
    have hsrck : thas args.src k = true := by
      rw [thas_siOf_results_eq backend fs args _ Hkeys hndC hndO hsi2 k] at hresk
      have hrawk : thas raw k = true := by
        rcases Bool.or_eq_true_iff.mp hresk with h | h
        · rcases Bool.or_eq_true_iff.mp h with h | h
          · exact (thas_route_filter (thas_overrideInputsOf_sub h)).2
          · exact (thas_route_filter h).2
        · exact (thas_route_filter h).2
      rw [hp, thas_filter_key args.src p k] at hrawk
      exact (Bool.and_eq_true_iff.mp hrawk).2
    cases ho : args.oldTarget with
    | none =>
      rw [newTarget_run_no_target args _ ho, hsi2]
      rfl
    | some t =>
      obtain ⟨w, hw⟩ := (thas_iff_tget inv.results k).mp hresk
      rw [newTarget_run_some_inv args _ inv t hsi2 ho, tget_join,
        if_pos hsrck, hw]
      rfl
  · -- order follows the source
    intro t inv ho hsi
    have hsi2 : siOf backend fs args (filterByManualMarking raw args pcs) = some inv := hsi
    rw [newTarget_run_some_inv args _ inv t hsi2 ho, listKeys_join]
    apply List.filter_congr
    intro k hkmem
    have hk : thas args.src k = true := (thas_eq_mem_listKeys args.src k).mpr hkmem
    have hR : thas (joinResultsPreserveOrder inv.results
        (computeChangeSet args (siOf backend fs args (filterByManualMarking raw args pcs)))
        (leftMinusRight t (leftMinusRight t args.src)) args.src) k =
        ((tget inv.results k).isSome ||
          (tget (leftMinusRight t (leftMinusRight t args.src)) k).isSome) := by
      rw [thas, tget_join, if_pos hk, or_isSome]
    rw [hR]
    rfl

/-- Witness for C2 at a concrete incremental run: source `[a, b]`, previous
target `{a: "A"}`, identity backend; the fresh key `b` is covered by the new
target. -/
theorem c2_new_target_invariant_witness :
    extractStringsToTranslate
      { src := [("a", some "x"), ("b", some "y")], srcLng := "en",
        srcFile := "locales/en.po", oldTarget := some [("a", some "A")],
        targetLng := "de", sourceOverride := [] } = some [("b", some "y")] ∧
    thas ({ changeSet := { skipped := [], added := [("b", some "y")],
                           updated := [], deleted := some [] },
            serviceInvocation := some { inputs := [("b", some "y")],
                                        results := [("b", some "y")] },
            newTarget := [("a", some "A"), ("b", some "y")] } : CoreResults).newTarget
      "b" = true :=
  ⟨by decide,
    (c2_new_target_invariant (fun batch _ => batch) (fun _ => none) (fun _ _ => none)
      { src := [("a", some "x"), ("b", some "y")], srcLng := "en",
        srcFile := "locales/en.po", oldTarget := some [("a", some "A")],
        targetLng := "de", sourceOverride := [] }
      [("b", some "y")]
      { changeSet := { skipped := [], added := [("b", some "y")],
                       updated := [], deleted := some [] },
        serviceInvocation := some { inputs := [("b", some "y")],
                                    results := [("b", some "y")] },
        newTarget := [("a", some "A"), ("b", some "y")] }
      (fun _ _ => rfl) (by decide) (by decide)
      (by intro lng osrc hl; cases hl) (by decide)).1 "b" (by decide) (by decide)⟩

/-- Witness for C6: key `k` is marked `@manual:zh-Hans`, the target is
`zh-Hant` with override `zh-Hant: zh-Hans`, and the override file read
fails; the run completes and copies the original text. -/
theorem c6_override_read_degradation_witness :
    alookup [("zh-Hant", "zh-Hans")] "zh-Hant" = some "zh-Hans" ∧
    (∃ res, translateCore (fun batch _ => batch)
        (fun _ => some { manual := ["zh-Hans"], context := "" })
        (fun _ _ => none)
        { src := [("k", some "v")], srcLng := "en", srcFile := "locales/en.po",
          oldTarget := none, targetLng := "zh-Hant",
          sourceOverride := [("zh-Hant", "zh-Hans")] } = some res ∧
      ∀ kv : String × Option String,
        kv ∈ (filterByManualMarking [("k", some "v")]
          { src := [("k", some "v")], srcLng := "en", srcFile := "locales/en.po",
            oldTarget := none, targetLng := "zh-Hant",
            sourceOverride := [("zh-Hant", "zh-Hans")] }
          (fun _ => some { manual := ["zh-Hans"], context := "" })).toTranslateFromOverride →
        ∃ inv, res.serviceInvocation = some inv ∧
          tget inv.inputs kv.1 = some kv.2 ∧
          tget inv.results kv.1 = some kv.2) :=
  ⟨by decide,
    (c6_override_read_degradation (fun batch _ => batch)
      (fun _ => some { manual := ["zh-Hans"], context := "" })
      (fun _ _ => none)
      { src := [("k", some "v")], srcLng := "en", srcFile := "locales/en.po",
        oldTarget := none, targetLng := "zh-Hant",
        sourceOverride := [("zh-Hant", "zh-Hans")] }
      [("k", some "v")] "zh-Hans"
      (fun _ _ => rfl) (by decide) (by decide) (by decide) (by decide)).1 rfl⟩

theorem option_or_eq_some {α : Type} {a b : Option α} {v : α}
    (h : a.or b = some v) : a = some v ∨ (a = none ∧ b = some v) := by
  cases a with
  | some w =>
    left
    exact h
  | none =>
    right
    exact ⟨rfl, h⟩

theorem buildOverrideInputs_eq_nil {b o : TSet}
    (h : ∀ kv ∈ b, ∀ s, tget o (kv : String × Option String).1 = some (some s) →
      s.isEmpty = true) :
    buildOverrideInputs b o = [] := by
  induction b with
  | nil => rfl
  | cons kv rest ih =>
    rw [buildOverrideInputs, List.filterMap_cons]
    rw [buildOverrideInputs] at ih
    have hrest := ih (fun kv' hkv' => h kv' (List.mem_cons_of_mem kv hkv'))
    cases hokv : tget o kv.1 with
    | none => simpa [hokv] using hrest
    | some w =>
      cases w with
      | none => simpa [hokv] using hrest
      | some s =>
        have hs : s.isEmpty = true := h kv (List.mem_cons_self kv rest) s hokv
        simpa [hokv, hs] using hrest

theorem mem_raw_mem_src {args : CoreArgs} {raw : TSet}
    (hraw : extractStringsToTranslate args = some raw)
    {kv : String × Option String} (h : kv ∈ raw) : kv ∈ args.src := by
  obtain ⟨p, hp⟩ := extract_is_key_filter args raw hraw
  rw [hp] at h
  exact (List.mem_filter.mp h).1

theorem siOf_results_values_nonnull (backend : TSet → CoreArgs → TSet)
    (fs : String → String → Option TSet) (args : CoreArgs)
    (pcs : String → Option ParsedComment) (raw : TSet)
    (Hkeys : ∀ batch a, listKeys (backend batch a) = listKeys batch)
    (Hnn : ∀ batch a kv, kv ∈ backend batch a →
      (kv : String × Option String).2 ≠ none)
    (hraw : extractStringsToTranslate args = some raw)
    (Hsrc : ∀ kv ∈ args.src, (kv : String × Option String).2 ≠ none)
    (hndC : (listKeys (filterByManualMarking raw args pcs).toCopyOriginal).Nodup)
    (hndO : (listKeys (filterByManualMarking raw args pcs).toTranslateFromOverride).Nodup)
    {inv : TServiceInvocation}
    (hinv : siOf backend fs args (filterByManualMarking raw args pcs) = some inv)
    (k : String) (v : Option String) (hv : tget inv.results k = some v) :
    v ≠ none := by
  have hbucket_nonnull : ∀ (sel : ManualFilterResult → TSet),
      (∀ m kv, kv ∈ sel (filterByManualMarking m args pcs) → kv ∈ m) →
      ∀ w, tget (sel (filterByManualMarking raw args pcs)) k = some w → w ≠ none := by
    intro sel hsel w hw
    have hmem := tget_mem hw
    exact Hsrc (k, w) (mem_raw_mem_src hraw (hsel raw (k, w) hmem))
  have h := siOf_optResults backend fs args _ Hkeys hndC hndO k
  rw [hinv] at h
  have h2 : ((tget (overrideResultsOf backend fs args
      (filterByManualMarking raw args pcs)) k).or
      ((tget (filterByManualMarking raw args pcs).toCopyOriginal k).or
        (tget (translateResultsOf backend args
          (filterByManualMarking raw args pcs)) k))) = some v := by
    rw [← h]
    exact hv
  rcases option_or_eq_some h2 with hov | ⟨-, h3⟩
  · -- value came from the override step
    revert hov
    unfold overrideResultsOf
    by_cases hb : 0 < (filterByManualMarking raw args pcs).toTranslateFromOverride.length
    · rw [if_pos hb]
      cases hl : alookup args.sourceOverride args.targetLng with
      | none => intro hov; cases hov
      | some lng =>
        dsimp only
        by_cases he : lng.isEmpty
        · rw [if_pos he]; intro hov; cases hov
        · rw [if_neg he]
          cases hr : readOverrideSource fs args.srcFile lng with
          | some osrc =>
            dsimp only
            by_cases hoi : 0 < (buildOverrideInputs
                (filterByManualMarking raw args pcs).toTranslateFromOverride osrc).length
            · rw [if_pos hoi]
              intro hov
              exact Hnn _ _ (k, v) (tget_mem hov)
            · rw [if_neg hoi]; intro hov; cases hov
          | none =>
            intro hov
            have hmem := tget_mem hov
            exact Hsrc (k, v) (mem_raw_mem_src hraw ((List.mem_filter.mp hmem).1))
    · rw [if_neg hb]; intro hov; cases hov
  · rcases option_or_eq_some h3 with hcp | ⟨-, h4⟩
    · have hmem := tget_mem hcp
      exact Hsrc (k, v) (mem_raw_mem_src hraw ((List.mem_filter.mp hmem).1))
    · revert h4
      unfold translateResultsOf
      by_cases ht : 1 ≤ (filterByManualMarking raw args pcs).toTranslate.length
      · rw [if_pos ht]
        intro h4
        exact Hnn _ _ (k, v) (tget_mem h4)
      · rw [if_neg ht]; intro h4; cases h4

theorem newTarget_keys_subset (backend : TSet → CoreArgs → TSet)
    (fs : String → String → Option TSet) (args : CoreArgs)
    (pcs : String → Option ParsedComment) (raw : TSet)
    (Hkeys : ∀ batch a, listKeys (backend batch a) = listKeys batch)
    (hraw : extractStringsToTranslate args = some raw)
    (hndsrc : (listKeys args.src).Nodup) (k : String)
    (h : thas (computeCoreResults args
      (siOf backend fs args (filterByManualMarking raw args pcs))
      (computeChangeSet args
        (siOf backend fs args (filterByManualMarking raw args pcs)))).newTarget k = true) :
    thas args.src k = true := by
  obtain ⟨p, hp⟩ := extract_is_key_filter args raw hraw
  have hndraw : (listKeys raw).Nodup := by
    rw [hp]
    exact (listKeys_filter_sublist _ _).nodup hndsrc
  have hndC := nodup_bucket_toCopyOriginal args pcs hndraw
  have hndO := nodup_bucket_toTranslateFromOverride args pcs hndraw
  cases ho : args.oldTarget with
  | none =>
    rw [newTarget_run_no_target args _ ho] at h
    cases hsi : siOf backend fs args (filterByManualMarking raw args pcs) with
    | none => rw [hsi] at h; cases h
    | some inv =>
      rw [hsi] at h
      have hresk : thas inv.results k = true := h
      rw [thas_siOf_results_eq backend fs args _ Hkeys hndC hndO hsi k] at hresk
      have hrawk : thas raw k = true := by
        rcases Bool.or_eq_true_iff.mp hresk with h1 | h1
        · rcases Bool.or_eq_true_iff.mp h1 with h1 | h1
          · exact (thas_route_filter (thas_overrideInputsOf_sub h1)).2
          · exact (thas_route_filter h1).2
        · exact (thas_route_filter h1).2
      rw [hp, thas_filter_key args.src p k] at hrawk
      exact (Bool.and_eq_true_iff.mp hrawk).2
  | some t =>
    cases hsi : siOf backend fs args (filterByManualMarking raw args pcs) with
    | none =>
      rw [newTarget_run_no_inv args _ t hsi ho, thas] at h
      rw [tget_leftMinusRight] at h
      by_cases hdel : thas (leftMinusRight t args.src) k = true
      · rw [if_pos hdel] at h
        cases h
      · have hdel2 : thas (t.filter (fun kv => !(thas args.src kv.1))) k = false := by
          simpa using hdel
        rw [thas_filter_key t (fun q => !(thas args.src q)) k] at hdel2
        rw [if_neg hdel] at h
        by_cases hsrc : thas args.src k = true
        · exact hsrc
        · exfalso
          have hsrc2 : thas args.src k = false := by simpa using hsrc
          rw [hsrc2] at hdel2
          simp only [Bool.not_false, Bool.true_and] at hdel2
          have htk : thas t k = true := h
          rw [htk] at hdel2
          cases hdel2
    | some inv =>
      rw [newTarget_run_some_inv args _ inv t hsi ho, thas, tget_join] at h
      by_cases hsrc : thas args.src k = true
      · exact hsrc
      · rw [if_neg hsrc] at h
        cases h

theorem run1_covered_nonnull (backend : TSet → CoreArgs → TSet)
    (fs : String → String → Option TSet) (args : CoreArgs)
    (pcs : String → Option ParsedComment) (raw : TSet)
    (Hkeys : ∀ batch a, listKeys (backend batch a) = listKeys batch)
    (Hnn : ∀ batch a kv, kv ∈ backend batch a →
      (kv : String × Option String).2 ≠ none)
    (Hsrc : ∀ kv ∈ args.src, (kv : String × Option String).2 ≠ none)
    (hndsrc : (listKeys args.src).Nodup)
    (hraw : extractStringsToTranslate args = some raw)
    (k : String) (hk : thas args.src k = true)
    (hrskip : routeOf (pcs k) args.targetLng
      (strTruthy (alookup args.sourceOverride args.targetLng)) ≠ Route.toSkip)
    (hrov : routeOf (pcs k) args.targetLng
        (strTruthy (alookup args.sourceOverride args.targetLng)) =
        Route.toTranslateFromOverride →
      ∀ lng osrc, alookup args.sourceOverride args.targetLng = some lng →
        readOverrideSource fs args.srcFile lng = some osrc →
        ∃ s, tget osrc k = some (some s) ∧ s.isEmpty = false) :
    ∃ s, tget (computeCoreResults args
      (siOf backend fs args (filterByManualMarking raw args pcs))
      (computeChangeSet args
        (siOf backend fs args (filterByManualMarking raw args pcs)))).newTarget k =
      some (some s) := by
  obtain ⟨p, hp⟩ := extract_is_key_filter args raw hraw
  have hndraw : (listKeys raw).Nodup := by
    rw [hp]
    exact (listKeys_filter_sublist _ _).nodup hndsrc
  have hndC := nodup_bucket_toCopyOriginal args pcs hndraw
  have hndO := nodup_bucket_toTranslateFromOverride args pcs hndraw
  by_cases hcand : thas raw k = true
  · obtain ⟨inv, hinv, hresk⟩ := candidate_covered backend fs args pcs raw
      Hkeys hndC hndO k hrov hcand hrskip
    obtain ⟨v, hv⟩ := (thas_iff_tget inv.results k).mp hresk
    have hvnn : v ≠ none := siOf_results_values_nonnull backend fs args pcs raw
      Hkeys Hnn hraw Hsrc hndC hndO hinv k v hv
    obtain ⟨s, rfl⟩ : ∃ s, v = some s := by
      cases v with
      | none => exact absurd rfl hvnn
      | some s => exact ⟨s, rfl⟩
    cases ho : args.oldTarget with
    | none =>
      rw [newTarget_run_no_target args _ ho, hinv]
      exact ⟨s, hv⟩
    | some t =>
      refine ⟨s, ?_⟩
      rw [newTarget_run_some_inv args _ inv t hinv ho, tget_join, if_pos hk, hv]
      rfl
  · have hfalse : thas raw k = false := by simpa using hcand
    have hsne : args.src.length ≠ 0 := by
      intro hc
      rw [List.eq_nil_of_length_eq_zero hc] at hk
      cases hk
    cases ho : args.oldTarget with
    | none =>
      have hrweq : raw = args.src := by
        unfold extractStringsToTranslate at hraw
        rw [if_neg hsne, ho] at hraw
        exact (Option.some.inj hraw).symm
      rw [hrweq, hk] at hfalse
      cases hfalse
    | some t =>
      have hrweq : raw = selectLeftDistinct args.src t .compareKeysAndNullValues := by
        unfold extractStringsToTranslate at hraw
        rw [if_neg hsne, ho] at hraw
        exact (Option.some.inj hraw).symm
      rw [hrweq] at hfalse
      have hfil : thas (args.src.filter
          (fun kv => (!(thas t kv.1) || decide (tget t kv.1 = some none)))) k = false :=
        hfalse
      rw [thas_filter_key args.src
        (fun q => (!(thas t q) || decide (tget t q = some none))) k, hk,
        Bool.and_true] at hfil
      rcases Bool.or_eq_false_iff.mp hfil with ⟨h1, h2⟩
      have hthast : thas t k = true := by simpa using h1
      have hnotnull : ¬ tget t k = some none := by simpa using h2
      obtain ⟨w, hw⟩ := (thas_iff_tget t k).mp hthast
      obtain ⟨s, rfl⟩ : ∃ s, w = some s := by
        cases w with
        | none => exact absurd hw hnotnull
        | some s => exact ⟨s, rfl⟩
      cases hsi : siOf backend fs args (filterByManualMarking raw args pcs) with
      | none =>
        refine ⟨s, ?_⟩
        rw [hrweq] at hsi
        rw [newTarget_run_no_inv args none t rfl ho, tget_pruned t args.src k hk, hw]
      | some inv =>
        cases hres : tget inv.results k with
        | some v =>
          have hvnn : v ≠ none := by
            rw [hrweq] at hsi
            exact siOf_results_values_nonnull backend fs args pcs
              (selectLeftDistinct args.src t .compareKeysAndNullValues)
              Hkeys Hnn (by rw [← hrweq]; exact hraw) Hsrc
              (by rw [← hrweq]; exact hndC) (by rw [← hrweq]; exact hndO)
              hsi k v hres
          obtain ⟨s2, rfl⟩ : ∃ s2, v = some s2 := by
            cases v with
            | none => exact absurd rfl hvnn
            | some s2 => exact ⟨s2, rfl⟩
          refine ⟨s2, ?_⟩
          rw [newTarget_run_some_inv args (some inv) inv t rfl ho, tget_join,
            if_pos hk, hres]
          rfl
        | none =>
          refine ⟨s, ?_⟩
          rw [newTarget_run_some_inv args (some inv) inv t rfl ho, tget_join,
            if_pos hk, hres, tget_pruned t args.src k hk, hw]
          rfl

/-- Counterexample for C5: a deterministic backend that answers only the
first key of each batch. The first run translates `a` and skips `b`; the
second run, with unchanged source and the first run's new target as the
previous target, sends the smaller batch `[b]`, now gets an answer, and
reports a non-empty `added` — so the second run is not a no-op as claimed. -/
theorem c5_counterexample_skipping_backend :
    (translateCore (fun batch _ => batch.take 1) (fun _ => none) (fun _ _ => none)
      { src := [("a", some "x"), ("b", some "y")], srcLng := "en",
        srcFile := "locales/en.po", oldTarget := none,
        targetLng := "de", sourceOverride := [] }).map (fun r => r.newTarget) =
      some [("a", some "x")] ∧
    (translateCore (fun batch _ => batch.take 1) (fun _ => none) (fun _ _ => none)
      { src := [("a", some "x"), ("b", some "y")], srcLng := "en",
        srcFile := "locales/en.po", oldTarget := some [("a", some "x")],
        targetLng := "de", sourceOverride := [] }).map (fun r => r.changeSet.added) =
      some [("b", some "y")] ∧
    ([("b", some "y")] : TSet) ≠ [] :=
  ⟨by decide, by decide, by decide⟩

theorem extract_with_target (a : CoreArgs) (t : TSet) (hne : ¬ a.src.length = 0) :
    extractStringsToTranslate { a with oldTarget := some t } =
      some (selectLeftDistinct a.src t .compareKeysAndNullValues) := by
  show (if a.src.length = 0 then none
      else some (selectLeftDistinct a.src t .compareKeysAndNullValues)) =
    some (selectLeftDistinct a.src t .compareKeysAndNullValues)
  rw [if_neg hne]

theorem second_run_not_covered {args : CoreArgs} {NT : TSet}
    {kv : String × Option String}
    (h : kv ∈ selectLeftDistinct args.src NT .compareKeysAndNullValues) :
    thas args.src kv.1 = true ∧ ¬ ∃ s, tget NT kv.1 = some (some s) := by
  have h' : kv ∈ args.src.filter (distinctPred NT .compareKeysAndNullValues) := h
  have hmem := List.mem_filter.mp h'
  refine ⟨thas_of_mem hmem.1, ?_⟩
  rintro ⟨s, hs⟩
  have hpred : (!(thas NT kv.1) || decide (tget NT kv.1 = some none)) = true := hmem.2
  rcases Bool.or_eq_true_iff.mp hpred with h1 | h1
  · have h2 : thas NT kv.1 = false := by simpa using h1
    rw [tget_eq_none_of_thas_false h2] at hs
    cases hs
  · have h2 : tget NT kv.1 = some none := of_decide_eq_true h1
    rw [h2] at hs
    simp at hs

theorem second_run_no_invocation (backend : TSet → CoreArgs → TSet)
    (fs : String → String → Option TSet) (args : CoreArgs)
    (pcs : String → Option ParsedComment) (NT : TSet)
    (cov : ∀ k, thas args.src k = true →
      routeOf (pcs k) args.targetLng
        (strTruthy (alookup args.sourceOverride args.targetLng)) ≠ Route.toSkip →
      (routeOf (pcs k) args.targetLng
          (strTruthy (alookup args.sourceOverride args.targetLng)) =
          Route.toTranslateFromOverride →
        ∀ lng osrc, alookup args.sourceOverride args.targetLng = some lng →
          readOverrideSource fs args.srcFile lng = some osrc →
          ∃ s, tget osrc k = some (some s) ∧ s.isEmpty = false) →
      ∃ s, tget NT k = some (some s)) :
    siOf backend fs { args with oldTarget := some NT }
      (filterByManualMarking
        (selectLeftDistinct args.src NT .compareKeysAndNullValues)
        { args with oldTarget := some NT } pcs) = none := by
  have hdich : ∀ kv ∈ selectLeftDistinct args.src NT .compareKeysAndNullValues,
      routeOf (pcs (kv : String × Option String).1) args.targetLng
          (strTruthy (alookup args.sourceOverride args.targetLng)) = Route.toSkip ∨
        (routeOf (pcs kv.1) args.targetLng
            (strTruthy (alookup args.sourceOverride args.targetLng)) =
            Route.toTranslateFromOverride ∧
          ∃ lng osrc, alookup args.sourceOverride args.targetLng = some lng ∧
            readOverrideSource fs args.srcFile lng = some osrc ∧
            ¬ ∃ s, tget osrc kv.1 = some (some s) ∧ s.isEmpty = false) := by
    intro kv hkv
    obtain ⟨hk, hnot⟩ := second_run_not_covered hkv
    cases hr : routeOf (pcs kv.1) args.targetLng
        (strTruthy (alookup args.sourceOverride args.targetLng)) with
    | toSkip => exact Or.inl rfl
    | toTranslate =>
      exact absurd (cov kv.1 hk (by rw [hr]; decide)
        (fun hov => Route.noConfusion (hr.symm.trans hov))) hnot
    | toCopyOriginal =>
      exact absurd (cov kv.1 hk (by rw [hr]; decide)
        (fun hov => Route.noConfusion (hr.symm.trans hov))) hnot
    | toTranslateFromOverride =>
      refine Or.inr ⟨rfl, ?_⟩
      by_cases hall : ∀ lng osrc, alookup args.sourceOverride args.targetLng = some lng →
          readOverrideSource fs args.srcFile lng = some osrc →
          ∃ s, tget osrc kv.1 = some (some s) ∧ s.isEmpty = false
      · exact absurd (cov kv.1 hk (by rw [hr]; decide) (fun _ => hall)) hnot
      · rcases not_forall.mp hall with ⟨lng, h1⟩
        rcases not_forall.mp h1 with ⟨osrc, h2⟩
        rcases Classical.not_imp.mp h2 with ⟨hA, h3⟩
        rcases Classical.not_imp.mp h3 with ⟨hB, hnotex⟩
        exact ⟨lng, osrc, hA, hB, hnotex⟩
  have hA : (filterByManualMarking
      (selectLeftDistinct args.src NT .compareKeysAndNullValues) args pcs).toTranslate = [] := by
    show (selectLeftDistinct args.src NT .compareKeysAndNullValues).filter
        (fun kv => decide (routeOf (pcs kv.1) args.targetLng
          (strTruthy (alookup args.sourceOverride args.targetLng)) =
            Route.toTranslate)) = []
    apply List.filter_eq_nil_iff.mpr
    intro kv hkv
    simp only [decide_eq_true_eq]
    intro hc
    rcases hdich kv hkv with h | ⟨h, -⟩
    · exact Route.noConfusion (hc.symm.trans h)
    · exact Route.noConfusion (hc.symm.trans h)
  have hB : (filterByManualMarking
      (selectLeftDistinct args.src NT .compareKeysAndNullValues) args pcs).toCopyOriginal = [] := by
    show (selectLeftDistinct args.src NT .compareKeysAndNullValues).filter
        (fun kv => decide (routeOf (pcs kv.1) args.targetLng
          (strTruthy (alookup args.sourceOverride args.targetLng)) =
            Route.toCopyOriginal)) = []
    apply List.filter_eq_nil_iff.mpr
    intro kv hkv
    simp only [decide_eq_true_eq]
    intro hc
    rcases hdich kv hkv with h | ⟨h, -⟩
    · exact Route.noConfusion (hc.symm.trans h)
    · exact Route.noConfusion (hc.symm.trans h)
  have hC : overrideInputsOf fs args (filterByManualMarking
      (selectLeftDistinct args.src NT .compareKeysAndNullValues) args pcs) = [] := by
    unfold overrideInputsOf
    by_cases hb : 0 < (filterByManualMarking
        (selectLeftDistinct args.src NT .compareKeysAndNullValues)
        args pcs).toTranslateFromOverride.length
    · rw [if_pos hb]
      obtain ⟨kv₀, hkv₀⟩ := List.exists_mem_of_ne_nil _ (List.length_pos.mp hb)
      have hroute₀ := route_of_mem_override hkv₀
      have hraw₀ : kv₀ ∈ selectLeftDistinct args.src NT .compareKeysAndNullValues := by
        have h' : kv₀ ∈ (selectLeftDistinct args.src NT .compareKeysAndNullValues).filter
            (fun kv => decide (routeOf (pcs kv.1) args.targetLng
              (strTruthy (alookup args.sourceOverride args.targetLng)) =
                Route.toTranslateFromOverride)) := hkv₀
        exact (List.mem_filter.mp h').1
      rcases hdich kv₀ hraw₀ with h | ⟨-, lng, osrc, hl, hr, -⟩
      · exact Route.noConfusion (hroute₀.symm.trans h)
      · rw [hl]
        dsimp only
        have hov : strTruthy (alookup args.sourceOverride args.targetLng) = true :=
          ((routeOf_eq_toTranslateFromOverride (pcs kv₀.1) args.targetLng _).mp hroute₀).2
        rw [hl] at hov
        have hemp : lng.isEmpty = false := by simpa [strTruthy] using hov
        rw [if_neg (by simp [hemp])]
        rw [hr]
        dsimp only
        apply buildOverrideInputs_eq_nil
        intro kv hkv s hsv
        have hroute := route_of_mem_override hkv
        have hrawm : kv ∈ selectLeftDistinct args.src NT .compareKeysAndNullValues := by
          have h'' : kv ∈ (selectLeftDistinct args.src NT .compareKeysAndNullValues).filter
              (fun q => decide (routeOf (pcs q.1) args.targetLng
                (strTruthy (alookup args.sourceOverride args.targetLng)) =
                  Route.toTranslateFromOverride)) := hkv
          exact (List.mem_filter.mp h'').1
        rcases hdich kv hrawm with h | ⟨-, lng', osrc', hl', hr', hnotex⟩
        · exact Route.noConfusion (hroute.symm.trans h)
        · have hlng : lng' = lng := Option.some.inj (hl'.symm.trans hl)
          subst hlng
          have hosrc : osrc' = osrc := Option.some.inj (hr'.symm.trans hr)
          subst hosrc
          by_contra hne
          exact hnotex ⟨s, hsv, by simpa using hne⟩
    · rw [if_neg hb]
  exact (siOf_eq_none_iff backend fs { args with oldTarget := some NT }
    (filterByManualMarking
      (selectLeftDistinct args.src NT .compareKeysAndNullValues)
      { args with oldTarget := some NT } pcs)).mpr ⟨hA, hB, hC⟩

/-- C5 (amended): provided the service returns results for exactly its input
keys and never returns (or is handed) a null value, and the override
source — whenever the override file is successfully read for an
override-routed key — supplies a non-empty text for it, a second run over an
unchanged source with the first run's new target as the previous target
reports no added and no updated entries and leaves the target file
byte-identical. (Without these provisos the claim fails: a backend that
answers only part of its batch makes the second run translate the remainder,
see the counterexample.) -/
theorem c5_second_run_stable (backend : TSet → CoreArgs → TSet)
    (pcs : String → Option ParsedComment) (fs : String → String → Option TSet)
    (args : CoreArgs) (res₁ res₂ : CoreResults)
    (Hkeys : ∀ batch a, listKeys (backend batch a) = listKeys batch)
    (Hnn : ∀ batch a kv, kv ∈ backend batch a →
      (kv : String × Option String).2 ≠ none)
    (Hsrc : ∀ kv ∈ args.src, (kv : String × Option String).2 ≠ none)
    (hndsrc : (listKeys args.src).Nodup)
    (hrun1 : translateCore backend pcs fs args = some res₁)
    (hrun2 : translateCore backend pcs fs
      { args with oldTarget := some res₁.newTarget } = some res₂) :
    res₂.changeSet.added = [] ∧ res₂.changeSet.updated = [] ∧
      res₂.newTarget = res₁.newTarget := by
  obtain ⟨raw₁, hraw₁⟩ : ∃ raw₁, extractStringsToTranslate args = some raw₁ := by
    cases hx : extractStringsToTranslate args with
    | none =>
      rw [translateCore.eq_def, hx] at hrun1
      cases hrun1
    | some raw => exact ⟨raw, rfl⟩
  have hres₁ : res₁ = computeCoreResults args
      (siOf backend fs args (filterByManualMarking raw₁ args pcs))
      (computeChangeSet args
        (siOf backend fs args (filterByManualMarking raw₁ args pcs))) :=
    Option.some.inj
      (hrun1.symm.trans (translateCore_eq_run backend pcs fs args raw₁ hraw₁))
  subst hres₁
  have hsne : ¬ args.src.length = 0 := by
    intro hc
    unfold extractStringsToTranslate at hraw₁
    rw [if_pos hc] at hraw₁
    cases hraw₁
  have hraw₂ := extract_with_target args
    (computeCoreResults args
      (siOf backend fs args (filterByManualMarking raw₁ args pcs))
      (computeChangeSet args
        (siOf backend fs args (filterByManualMarking raw₁ args pcs)))).newTarget
    hsne
  have hres₂ := Option.some.inj
    (hrun2.symm.trans (translateCore_eq_run backend pcs fs _ _ hraw₂))
  subst hres₂
  have hcov := run1_covered_nonnull backend fs args pcs raw₁
    Hkeys Hnn Hsrc hndsrc hraw₁
  have hsub := newTarget_keys_subset backend fs args pcs raw₁
    Hkeys hraw₁ hndsrc
  revert hcov hsub
  generalize (computeCoreResults args
    (siOf backend fs args (filterByManualMarking raw₁ args pcs))
    (computeChangeSet args
      (siOf backend fs args (filterByManualMarking raw₁ args pcs)))).newTarget = NT
  intro hcov hsub
  have hsi₂ := second_run_no_invocation backend fs args pcs NT hcov
  refine ⟨?_, ?_, ?_⟩
  · rw [hsi₂]
    rfl
  · rw [hsi₂]
    rfl
  · rw [newTarget_run_no_inv { args with oldTarget := some NT } _ NT hsi₂ rfl]
    have hdel : leftMinusRight NT args.src = [] := by
      show NT.filter (fun kv => !(thas args.src kv.1)) = []
      apply List.filter_eq_nil_iff.mpr
      intro kv hkv
      have h1 : thas args.src kv.1 = true := hsub kv.1 (thas_of_mem hkv)
      simp [h1]
    have hfin : leftMinusRight NT (leftMinusRight NT args.src) = NT := by
      rw [hdel, leftMinusRight_nil_right]
    exact hfin

theorem c5_second_run_stable_witness :
    ({ changeSet := { skipped := [], added := [], updated := [], deleted := some [] },
       serviceInvocation := none,
       newTarget := [("a", some "x")] } : CoreResults).changeSet.added = [] ∧
      ({ changeSet := { skipped := [], added := [], updated := [], deleted := some [] },
         serviceInvocation := none,
         newTarget := [("a", some "x")] } : CoreResults).changeSet.updated = [] ∧
      ({ changeSet := { skipped := [], added := [], updated := [], deleted := some [] },
         serviceInvocation := none,
         newTarget := [("a", some "x")] } : CoreResults).newTarget =
        ({ changeSet := { skipped := [], added := [("a", some "x")], updated := [],
                          deleted := none },
           serviceInvocation := some { inputs := [("a", some "x")],
                                       results := [("a", some "x")] },
           newTarget := [("a", some "x")] } : CoreResults).newTarget :=
  c5_second_run_stable
    (fun batch _ => batch.map (fun kv => (kv.1, some (kv.2.getD ""))))
    (fun _ => none) (fun _ _ => none)
    { src := [("a", some "x")], srcLng := "en", srcFile := "locales/en.po",
      oldTarget := none, targetLng := "de", sourceOverride := [] }
    { changeSet := { skipped := [], added := [("a", some "x")], updated := [],
                     deleted := none },
      serviceInvocation := some { inputs := [("a", some "x")],
                                  results := [("a", some "x")] },
      newTarget := [("a", some "x")] }
    { changeSet := { skipped := [], added := [], updated := [], deleted := some [] },
      serviceInvocation := none,
      newTarget := [("a", some "x")] }
    (fun batch a => by
      simp only [listKeys, List.map_map]
      exact List.map_congr_left (fun kv _ => rfl))
    (by
      intro batch a kv hkv
      obtain ⟨kv₀, -, rfl⟩ := List.mem_map.mp hkv
      simp)
    (by decide) (by decide) (by decide) (by decide)
